import Mathlib

/-!
Verification development for the pisak2.0 word-prediction engine
(`pisak/predictions/beam_search.py`).

The Python module is shallowly embedded below.  Pure string manipulation
(`_clean_context_text`, `_extract_unfinished_word`, `strip`, `isalpha`,
`split(" ")`) is translated to executable functions on `List Char`.
CPython's `heapq` operations (`heappush`, `heappop`) are translated
positionally, field by field, from their reference implementation;
`heapq.nsmallest(n, it)` is modelled by its documented equivalence to
`sorted(it)[:n]` with a stable insertion sort.  Floating-point score
arithmetic (`math.log`, `math.exp`, `**`) is idealised over `ℝ`; the
engine itself is generic over a `ScoreOps` record so that the purely
structural parts stay executable, and `floatOps` instantiates the record
with the real-number semantics of the Python source (with `math.log`
partial at non-positive arguments, where CPython raises `ValueError`).
The oracle (`model.predict`) returns `Except Unit (List ℚ)`: an `Except.error`
models a raised exception, and probabilities are rationals (every float
literal used in the development is exactly representable).
`unicodedata.normalize("NFC", ·)` is modelled as the identity, which is
exact on the (already NFC-normal) inputs considered here.
-/

namespace Pisak

/-! ## Python string primitives -/

/-- Characters treated as whitespace by Python's `str.strip` and `\s` (ASCII range). -/
def isPySpace (c : Char) : Bool :=
  c == ' ' || c == '\t' || c == '\n' || c == '\r' || c == '\x0b' || c == '\x0c'

/-- Drop leading Python whitespace, models `str.lstrip`. -/
def lstripChars (l : List Char) : List Char := l.dropWhile isPySpace

/-- Drop trailing Python whitespace, models `str.rstrip`. -/
def rstripChars (l : List Char) : List Char := (l.reverse.dropWhile isPySpace).reverse

/-- Models Python `str.strip()`. -/
def pyStrip (s : String) : String := String.mk (rstripChars (lstripChars s.toList))

/-- Models Python `str.lstrip()`. -/
def pyLStrip (s : String) : String := String.mk (lstripChars s.toList)

/-- The lower-case Polish letters appearing in the cleaning regex of the source. -/
def polishLower : List Char := ['ą', 'ć', 'ę', 'ł', 'ń', 'ó', 'ś', 'ź', 'ż']

/-- Letter predicate modelling Python `str.isalpha` on the Latin + Polish
alphabet relevant to this engine. -/
def isAlphaPy (c : Char) : Bool :=
  c.isAlpha || polishLower.contains c ||
    (['Ą', 'Ć', 'Ę', 'Ł', 'Ń', 'Ó', 'Ś', 'Ź', 'Ż'] : List Char).contains c

/-- Models Python `str.isalpha()`: nonempty and every character a letter. -/
def pyIsAlpha (s : String) : Bool := !s.toList.isEmpty && s.toList.all isAlphaPy

/-- Models Python `str.lower()` character-wise for ASCII and the Polish letters. -/
def pyToLowerChar (c : Char) : Char :=
  if 'A' ≤ c ∧ c ≤ 'Z' then Char.toLower c
  else match c with
  | 'Ą' => 'ą' | 'Ć' => 'ć' | 'Ę' => 'ę' | 'Ł' => 'ł' | 'Ń' => 'ń'
  | 'Ó' => 'ó' | 'Ś' => 'ś' | 'Ź' => 'ź' | 'Ż' => 'ż'
  | _ => c

/-! ## TextNormalizer (`_clean_context_text`, `_extract_unfinished_word`) -/

/-- Character class kept by `CLEAN_REGEX = re.compile(r"[^a-ząćęłńóśźż0-9\s]")`:
the regex deletes everything outside lowercase ASCII letters, Polish letters,
digits and whitespace. -/
def cleanAllowed (c : Char) : Bool :=
  ('a' ≤ c && c ≤ 'z') || ('0' ≤ c && c ≤ '9') || polishLower.contains c || isPySpace c

/-- Collapse maximal runs of two or more adjacent spaces to a single space. -/
def squashSpaceRuns : List Char → List Char
  | [] => []
  | [c] => [c]
  | a :: b :: rest =>
    if a == ' ' && b == ' ' then squashSpaceRuns (b :: rest)
    else a :: squashSpaceRuns (b :: rest)

/-- Models `MULTIPLE_WHITESPACE.sub(" ", s)` for `MULTIPLE_WHITESPACE = re.compile(r"[ \t]+")`:
every maximal run of spaces and tabs becomes a single space. -/
def multipleWhitespaceSub (l : List Char) : List Char :=
  squashSpaceRuns (l.map fun c => if c == '\t' then ' ' else c)

/-- Models `unicodedata.normalize("NFC", s)`.  The inputs this development deals
with are already NFC-normal (ASCII and precomposed Polish letters), on which
NFC is the identity. -/
def nfcNormalize (s : String) : String := s

/-- Embeds `WordPredictionBeamSearch._clean_context_text`. -/
def _clean_context_text (context_text : String) : String :=
  let lowered := String.mk (context_text.toList.map pyToLowerChar)
  let normed := nfcNormalize lowered
  let filtered := String.mk (normed.toList.filter cleanAllowed)
  String.mk (multipleWhitespaceSub filtered.toList)

/-- Models Python `s.split(" ")`: split at every single space, keeping empty fields. -/
def splitSpace : List Char → List (List Char)
  | [] => [[]]
  | c :: cs =>
    if c == ' ' then [] :: splitSpace cs
    else
      match splitSpace cs with
      | [] => [[c]]
      | w :: ws => (c :: w) :: ws

/-- Models `" ".join(words)`. -/
def joinSpace : List (List Char) → List Char
  | [] => []
  | [w] => w
  | w :: ws => w ++ ' ' :: joinSpace ws

/-- Embeds `WordPredictionBeamSearch._extract_unfinished_word`. -/
def _extract_unfinished_word (context_text : String) : String × String :=
  if context_text = "" ∨ context_text.toList.getLast? = some ' ' then
    (context_text, "")
  else
    let words := splitSpace context_text.toList
    if words.length = 1 then ("", String.mk (words.headD []))
    else (String.mk (joinSpace words.dropLast), String.mk (' ' :: words.getLastD []))

/-! ## CPython `heapq` -/

/-- Embeds CPython `heapq._siftdown(heap, startpos, pos)` where `newitem` has
been read from `heap[pos]`; walks the parent chain upward. -/
def siftdownRec (lt : α → α → Bool) (startpos : Nat) (heap : List α)
    (pos : Nat) (newitem : α) : List α :=
  if h : startpos < pos then
    if lt newitem (heap.getD ((pos - 1) / 2) newitem) then
      siftdownRec lt startpos (heap.set pos (heap.getD ((pos - 1) / 2) newitem))
        ((pos - 1) / 2) newitem
    else
      heap.set pos newitem
  else
    heap.set pos newitem
termination_by pos
decreasing_by
  exact Nat.lt_of_le_of_lt (Nat.div_le_self _ _) (by omega)

/-- Embeds CPython `heapq._siftup(heap, pos)` (with `newitem = heap[pos]`):
moves the smaller child up until a leaf position, then calls `_siftdown`. -/
def siftupRec (lt : α → α → Bool) (heap : List α) (startpos pos : Nat)
    (newitem : α) : List α :=
  if h : 2 * pos + 1 < heap.length then
    if h2 : 2 * pos + 2 < heap.length ∧
        ¬ lt (heap.getD (2 * pos + 1) newitem) (heap.getD (2 * pos + 2) newitem) then
      siftupRec lt (heap.set pos (heap.getD (2 * pos + 2) newitem)) startpos
        (2 * pos + 2) newitem
    else
      siftupRec lt (heap.set pos (heap.getD (2 * pos + 1) newitem)) startpos
        (2 * pos + 1) newitem
  else
    siftdownRec lt startpos (heap.set pos newitem) pos newitem
termination_by heap.length - pos
decreasing_by
  · simp only [List.length_set]; omega
  · simp only [List.length_set]; omega

/-- Embeds CPython `heapq.heappush`. -/
def heappush (lt : α → α → Bool) (heap : List α) (item : α) : List α :=
  siftdownRec lt 0 (heap ++ [item]) heap.length item

/-- Embeds CPython `heapq.heappop`; `none` models the `IndexError` on an empty heap. -/
def heappop (lt : α → α → Bool) : List α → Option (α × List α)
  | [] => none
  | x :: xs =>
    let lastelt := xs.getLastD x
    match (x :: xs).dropLast with
    | [] => some (lastelt, [])
    | y :: ys => some (y, siftupRec lt ((y :: ys).set 0 lastelt) 0 0 lastelt)

/-- Stable insertion of `x` into an `lt`-ascending list (before the first
element not `lt` than it), as Python's stable `sorted` would place it. -/
def pyInsertStable (lt : α → α → Bool) (x : α) : List α → List α
  | [] => [x]
  | y :: ys => if lt y x then y :: pyInsertStable lt x ys else x :: y :: ys

/-- Stable sort with strict comparator `lt`, modelling Python `sorted`. -/
def pySorted (lt : α → α → Bool) : List α → List α
  | [] => []
  | x :: xs => pyInsertStable lt x (pySorted lt xs)

/-- Models `heapq.nsmallest(n, heap)` through its documented equivalence to
`sorted(heap)[:n]` (`sorted` is stable in the heap's internal order). -/
def nsmallest (n : Nat) (lt : α → α → Bool) (heap : List α) : List α :=
  (pySorted lt heap).take n

/-! ## Engine data model -/

/-- Embeds the `BeamItem` dataclass.  `order=True` with `compare=False` on all
fields but the first means two items compare by `neg_log_prob_normalised` alone. -/
structure BeamItem (R : Type) where
  neg_log_prob_normalised : R
  neg_log_prob : R
  tokens : List Nat
  text : String
deriving Repr

/-- Embeds the `CompletedWord` dataclass (again ordered by its first field only). -/
structure CompletedWord (R : Type) where
  neg_log_prob_normalised : R
  tokens : List Nat
  text : String
  probability : R
deriving Repr

/-- The dataclass-generated strict comparison on `BeamItem`. -/
def beamLt {R : Type} [LinearOrder R] (a b : BeamItem R) : Bool :=
  decide (a.neg_log_prob_normalised < b.neg_log_prob_normalised)

/-- The dataclass-generated strict comparison on `CompletedWord`. -/
def cwLt {R : Type} [LinearOrder R] (a b : CompletedWord R) : Bool :=
  decide (a.neg_log_prob_normalised < b.neg_log_prob_normalised)

/-- External tokenizer interface used by the engine. -/
structure Tokenizer where
  encode : String → List Nat
  decode : List Nat → String
  id_to_piece : Nat → String

/-- The oracle: `model.predict` over token ids.  `Except.error` models a raised
exception, `Except.ok` a returned probability list indexed by token id. -/
abbrev OracleModel : Type := List Nat → Except Unit (List ℚ)

/-- Failure modes of one `get_top_k_words` call: an exception raised by
`model.predict`, or the `ValueError` of `math.log` on a non-positive float. -/
inductive EngineError where
  | oracleRaised : EngineError
  | logDomain : EngineError
deriving DecidableEq, Repr

/-- The constructor parameters `beam_width` and `max_word_length`. -/
structure SearchConfig where
  beam_width : Nat
  max_word_length : Nat
deriving Repr

/-- The score arithmetic of the engine, abstracted so the search loop stays
executable.  `negLog p` models `-math.log(p)` (`none` when CPython would raise),
`normalize nlp len` models the source expression
`nlp * (penalty_value + len ** alpha / (penalty_value + 1) ** alpha)`, and
`negExp x` models `math.exp(-x)`. -/
structure ScoreOps (R : Type) where
  negLog : ℚ → Option R
  normalize : R → Nat → R
  negExp : R → R

/-- The real-number semantics of the score arithmetic, with the source's
`penalty_value = 5` and `alpha = 0.6` (lines 70-71 of `beam_search.py`); note
the operator precedence of the Python expression on lines 241-242 / 343-344:
`penalty + (len ** alpha) / ((penalty + 1) ** alpha)`. -/
noncomputable def floatOps : ScoreOps ℝ where
  negLog p := if p ≤ 0 then none else some (-Real.log (p : ℝ))
  normalize nlp len := nlp * (5 + (len : ℝ) ^ (0.6 : ℝ) / ((5 : ℝ) + 1) ^ (0.6 : ℝ))
  negExp x := Real.exp (-x)

/-- The word-start marker `self.start_new_word_char = "▁"`. -/
def start_new_word_char : String := "▁"

/-- Embeds `WordPredictionBeamSearch.starts_new_word`; `str.startswith` is
modelled on the character lists of the two strings. -/
def starts_new_word (tok : Tokenizer) (token_id : Nat) : Bool :=
  start_new_word_char.toList.isPrefixOf (tok.id_to_piece token_id).toList

/-- Embeds `WordPredictionBeamSearch.contains_letters_only`. -/
def contains_letters_only (tok : Tokenizer) (token_id : Nat) : Bool :=
  pyIsAlpha (tok.decode [token_id])

/-- Embeds `WordPredictionBeamSearch._get_top_tokens` helper: the enumeration
`[(i, prob) for i, prob in enumerate(token_probs)]`. -/
def enumerateFrom (i : Nat) : List ℚ → List (Nat × ℚ)
  | [] => []
  | p :: ps => (i, p) :: enumerateFrom (i + 1) ps

/-- Comparator for `sorted(token_prob_pairs, key=lambda x: x[1], reverse=True)`:
`a` sorts strictly before `b` when its probability is larger. -/
def probDescLt (a b : Nat × ℚ) : Bool := decide (b.2 < a.2)

/-- Embeds `WordPredictionBeamSearch._get_top_tokens`. -/
def _get_top_tokens (token_probs : List ℚ) (k : Nat) : List (Nat × ℚ) :=
  (pySorted probDescLt (enumerateFrom 0 token_probs)).take k

/-- Embeds `WordPredictionBeamSearch._create_complete_word`. -/
def _create_complete_word {R : Type} (ops : ScoreOps R) (cur : BeamItem R) :
    Option (CompletedWord R) :=
  let word_text := pyStrip cur.text
  if word_text ≠ "" then
    some ⟨cur.neg_log_prob_normalised, cur.tokens, word_text, ops.negExp cur.neg_log_prob⟩
  else none

/-- Embeds `WordPredictionBeamSearch._create_new_beam_prefix` (renamed: the
source name is kept everywhere else, but this identifier is unusable here).
Extends a candidate with one continuation token. -/
def _create_new_beam_item {R : Type} [Add R] (ops : ScoreOps R) (tok : Tokenizer)
    (cur : BeamItem R) (token_id : Nat) (token_prob : ℚ) :
    Except EngineError (BeamItem R) :=
  match ops.negLog token_prob with
  | none => .error .logDomain
  | some nl =>
    let token_text := tok.decode [token_id]
    let new_tokens := cur.tokens ++ [token_id]
    let new_text := cur.text ++ token_text
    let new_log_prob := cur.neg_log_prob + nl
    .ok ⟨ops.normalize new_log_prob new_tokens.length, new_log_prob, new_tokens, new_text⟩

/-- The `SearchSession` state threaded through one `get_top_k_words` call:
the beam, the completed pool with its de-duplication text list, the
probability cache (association list modelling the Python dict), the explored
set and the beam-membership set (`beam_prefixes`), and the inference counter. -/
structure SearchState (R : Type) where
  beam : List (BeamItem R)
  completed_words : List (CompletedWord R)
  completed_words_texts : List String
  prob_cache : List (List Nat × List (Nat × ℚ))
  explored : List (List Nat)
  beam_keys : List (List Nat)
  inference_count : Nat

/-- Completion of the popped candidate: `_create_complete_word` plus the
duplicate-text guard and the push into the completed pool (lines 209-217 and
223-230 of the source). -/
def completeCurrent {R : Type} [LinearOrder R] (ops : ScoreOps R)
    (cur : BeamItem R) (st : SearchState R) : SearchState R :=
  match _create_complete_word ops cur with
  | none => st
  | some cw =>
    if cw.text ∉ st.completed_words_texts then
      { st with
        completed_words := heappush cwLt st.completed_words cw
        completed_words_texts := st.completed_words_texts ++ [cw.text] }
    else st

/-- One pass of the `for token_id, token_prob in top_next_tokens` body
(lines 201-271 of the source). -/
def expandOne {R : Type} [LinearOrder R] [Add R] (ops : ScoreOps R) (tok : Tokenizer)
    (context_tokens : List Nat) (unfinished_word : String) (cur : BeamItem R)
    (t : Nat × ℚ) (st : SearchState R) : Except EngineError (SearchState R) :=
  if ¬ contains_letters_only tok t.1 then .ok st
  else if starts_new_word tok t.1 then
    if unfinished_word ≠ "" then
      .ok (completeCurrent ops cur st)
    else
      let st1 := if pyStrip cur.text ≠ "" then completeCurrent ops cur st else st
      match ops.negLog t.2 with
      | none => .error .logDomain
      | some nl =>
        let token_text := pyLStrip (tok.decode [t.1])
        let new_tokens := [t.1]
        let new_item : BeamItem R :=
          ⟨ops.normalize nl new_tokens.length, nl, new_tokens, token_text⟩
        let new_cache_key := context_tokens ++ new_tokens
        if new_cache_key ∉ st1.beam_keys ∧ new_cache_key ∉ st1.explored then
          .ok { st1 with
                beam := heappush beamLt st1.beam new_item
                beam_keys := new_cache_key :: st1.beam_keys }
        else .ok st1
  else
    match _create_new_beam_item ops tok cur t.1 t.2 with
    | .error e => .error e
    | .ok new_item =>
      let new_cache_key := context_tokens ++ new_item.tokens
      if new_cache_key ∉ st.beam_keys ∧ new_cache_key ∉ st.explored then
        .ok { st with
              beam := heappush beamLt st.beam new_item
              beam_keys := new_cache_key :: st.beam_keys }
      else .ok st

/-- Folds `expandOne` over the selected top tokens. -/
def expandTokens {R : Type} [LinearOrder R] [Add R] (ops : ScoreOps R) (tok : Tokenizer)
    (context_tokens : List Nat) (unfinished_word : String) (cur : BeamItem R) :
    List (Nat × ℚ) → SearchState R → Except EngineError (SearchState R)
  | [], st => .ok st
  | t :: ts, st =>
    match expandOne ops tok context_tokens unfinished_word cur t st with
    | .error e => .error e
    | .ok st' => expandTokens ops tok context_tokens unfinished_word cur ts st'

/-- The tail of one loop iteration: the token-expansion `for` loop followed by
the closing `beam = heapq.nsmallest(self.beam_width, beam)` prune (line 274). -/
def expandAndPrune {R : Type} [LinearOrder R] [Add R] (ops : ScoreOps R)
    (cfg : SearchConfig) (tok : Tokenizer) (context_tokens : List Nat)
    (unfinished_word : String) (cur : BeamItem R) (tnt : List (Nat × ℚ))
    (st : SearchState R) : Except EngineError (SearchState R) :=
  match expandTokens ops tok context_tokens unfinished_word cur tnt st with
  | .error e => .error e
  | .ok st' =>
    .ok { st' with beam := nsmallest cfg.beam_width beamLt st'.beam }

/-- One iteration of the main `while` loop (lines 146-275): pop, length prune,
explored-set guard, cached or fresh oracle call, token expansion, and the final
`beam = heapq.nsmallest(beam_width, beam)` prune. -/
def searchStep {R : Type} [LinearOrder R] [Add R] (ops : ScoreOps R) (cfg : SearchConfig)
    (tok : Tokenizer) (oracle : OracleModel) (context_tokens : List Nat)
    (unfinished_word : String) (st : SearchState R) :
    Except EngineError (SearchState R) :=
  match heappop beamLt st.beam with
  | none => .ok st
  | some (current, beamRest) =>
    let st := { st with beam := beamRest }
    if cfg.max_word_length ≤ current.tokens.length then .ok st
    else
      let cache_key := context_tokens ++ current.tokens
      if cache_key ∈ st.explored then .ok st
      else
        let st := { st with
                    explored := cache_key :: st.explored
                    beam_keys := st.beam_keys.erase cache_key }
        let next :=
          match st.prob_cache.lookup cache_key with
          | some tnt => Except.ok (tnt, st)
          | none =>
            match oracle (context_tokens ++ current.tokens) with
            | .error _ => Except.error EngineError.oracleRaised
            | .ok token_probs =>
              let tnt := _get_top_tokens token_probs cfg.beam_width
              Except.ok (tnt,
                { st with
                  prob_cache := (cache_key, tnt) :: st.prob_cache
                  inference_count := st.inference_count + 1 })
        match next with
        | .error e => .error e
        | .ok (tnt, st) =>
          expandAndPrune ops cfg tok context_tokens unfinished_word current tnt st

/-- The main `while` loop of `get_top_k_words`, with the Python iteration
counter made explicit; returns the final state and the iteration count. -/
def searchLoop {R : Type} [LinearOrder R] [Add R] (ops : ScoreOps R) (cfg : SearchConfig)
    (tok : Tokenizer) (oracle : OracleModel) (context_tokens : List Nat)
    (unfinished_word : String) (k max_iterations : Nat) (iteration : Nat)
    (st : SearchState R) : Except EngineError (SearchState R × Nat) :=
  if h : st.beam.isEmpty = false ∧ st.completed_words.length < k ∧ iteration < max_iterations then
    match searchStep ops cfg tok oracle context_tokens unfinished_word st with
    | .error e => .error e
    | .ok st' =>
      searchLoop ops cfg tok oracle context_tokens unfinished_word
        k max_iterations (iteration + 1) st'
  else .ok (st, iteration)
termination_by max_iterations - iteration
decreasing_by
  exact Nat.sub_lt_sub_left h.2.2 (Nat.lt_succ_self iteration)

/-- The seed beam (lines 107-119): in completion mode one candidate carrying
the unfinished word's tokens and text at score zero, otherwise one empty
candidate. -/
def initialBeam {R : Type} [Zero R] (tok : Tokenizer) (unfinished_word : String) :
    List (BeamItem R) :=
  if unfinished_word ≠ "" then
    [⟨0, 0, tok.encode unfinished_word, unfinished_word⟩]
  else
    [⟨0, 0, [], ""⟩]

/-- The initial `beam_prefixes` set (lines 130-136). -/
def initialBeamKeys (tok : Tokenizer) (context_tokens : List Nat)
    (unfinished_word : String) : List (List Nat) :=
  if unfinished_word ≠ "" then
    [context_tokens ++ tok.encode unfinished_word]
  else
    [context_tokens ++ ([] : List Nat)]

/-- Embeds `get_top_k_words` up to, and including, the final
`top_words = heapq.nsmallest(k, completed_words)` (line 287); the returned
list is the ordered pool the result tuples are built from. -/
def get_top_k_completed {R : Type} [LinearOrder R] [Add R] [Zero R] (ops : ScoreOps R)
    (cfg : SearchConfig) (tok : Tokenizer) (oracle : OracleModel)
    (context_text : String) (k : Nat) : Except EngineError (List (CompletedWord R)) :=
  let cleaned := _clean_context_text context_text
  let split := _extract_unfinished_word cleaned
  let finished_context := split.1
  let unfinished_word := split.2
  let context_tokens := tok.encode finished_context
  let st0 : SearchState R :=
    ⟨initialBeam tok unfinished_word, [], [], [], [],
      initialBeamKeys tok context_tokens unfinished_word, 0⟩
  let max_iterations := k * cfg.beam_width * 10
  match searchLoop ops cfg tok oracle context_tokens unfinished_word
      k max_iterations 0 st0 with
  | .error e => .error e
  | .ok (st, _) => .ok (nsmallest k cwLt st.completed_words)

/-- Embeds `WordPredictionBeamSearch.get_top_k_words`: the completed pool's
top `k`, rendered as `(word_text, probability, num_tokens)` tuples
(lines 289-294). -/
def get_top_k_words {R : Type} [LinearOrder R] [Add R] [Zero R] (ops : ScoreOps R)
    (cfg : SearchConfig) (tok : Tokenizer) (oracle : OracleModel)
    (context_text : String) (k : Nat) :
    Except EngineError (List (String × R × Nat)) :=
  match get_top_k_completed ops cfg tok oracle context_text k with
  | .error e => .error e
  | .ok top_words =>
    .ok (top_words.map fun w => (w.text, w.probability, w.tokens.length))

/-- The engine with the real-number float semantics: the object of the
behavioural claims. -/
noncomputable def get_top_k_wordsReal (cfg : SearchConfig) (tok : Tokenizer)
    (oracle : OracleModel) (context_text : String) (k : Nat) :
    Except EngineError (List (String × ℝ × Nat)) :=
  get_top_k_words floatOps cfg tok oracle context_text k

/-- The specification's length-normalisation formula, transcribed from the
spec text: `score = cumulative_negative_log_prob × (β + len)^α / (β + 1)^α`
with `β = penalty_value = 5` and `α = 0.6`. -/
noncomputable def specLengthNormalizedScore (nlp : ℝ) (len : Nat) : ℝ :=
  nlp * (((5 : ℝ) + (len : ℝ)) ^ (0.6 : ℝ) / ((5 : ℝ) + 1) ^ (0.6 : ℝ))

/-! ## Heap and sort lemmas -/

theorem getD_mem_or_eq (l : List α) (n : Nat) (d : α) : l.getD n d ∈ l ∨ l.getD n d = d := by
  by_cases h : n < l.length
  · left
    rw [List.getD_eq_getElem l d h]
    exact List.getElem_mem h
  · right
    exact List.getD_eq_default l d (by omega)

theorem getLastD_mem (xs : List α) (x : α) : xs.getLastD x ∈ x :: xs := by
  induction xs generalizing x with
  | nil => simp [List.getLastD]
  | cons y ys ih =>
    have h : (y :: ys).getLastD x = ys.getLastD y := by
      cases ys <;> rfl
    rw [h]
    exact List.mem_cons_of_mem x (ih y)

theorem siftdownRec_length (lt : α → α → Bool) (s : Nat) (heap : List α) (pos : Nat)
    (x : α) : (siftdownRec lt s heap pos x).length = heap.length := by
  induction heap, pos, x using siftdownRec.induct lt s with
  | case1 heap pos newitem h hlt ih =>
    rw [siftdownRec, dif_pos h, if_pos hlt, ih, List.length_set]
  | case2 heap pos newitem h hlt =>
    rw [siftdownRec, dif_pos h, if_neg hlt, List.length_set]
  | case3 heap pos newitem h =>
    rw [siftdownRec, dif_neg h, List.length_set]

theorem siftupRec_length (lt : α → α → Bool) (heap : List α) (s pos : Nat) (x : α) :
    (siftupRec lt heap s pos x).length = heap.length := by
  induction heap, s, pos, x using siftupRec.induct lt with
  | case1 heap s pos newitem h h2 ih =>
    rw [siftupRec]
    simp only [dif_pos h, dif_pos h2]
    rw [ih]
    simp
  | case2 heap s pos newitem h h2 ih =>
    rw [siftupRec]
    simp only [dif_pos h, dif_neg h2]
    rw [ih]
    simp
  | case3 heap s pos newitem h =>
    rw [siftupRec]
    simp [dif_neg h, siftdownRec_length]

theorem heappush_length (lt : α → α → Bool) (heap : List α) (x : α) :
    (heappush lt heap x).length = heap.length + 1 := by
  unfold heappush
  rw [siftdownRec_length]
  simp

theorem siftdownRec_mem (lt : α → α → Bool) (s : Nat) (heap : List α) (pos : Nat)
    (x : α) : ∀ y ∈ siftdownRec lt s heap pos x, y = x ∨ y ∈ heap := by
  induction heap, pos, x using siftdownRec.induct lt s with
  | case1 heap pos newitem h hlt ih =>
    intro y hy
    rw [siftdownRec, dif_pos h, if_pos hlt] at hy
    rcases ih y hy with h1 | h1
    · exact .inl h1
    · rcases List.mem_or_eq_of_mem_set h1 with h2 | h2
      · exact .inr h2
      · rcases getD_mem_or_eq heap ((pos - 1) / 2) newitem with h3 | h3
        · exact .inr (h2 ▸ h3)
        · exact .inl (h2.trans h3)
  | case2 heap pos newitem h hlt =>
    intro y hy
    rw [siftdownRec, dif_pos h, if_neg hlt] at hy
    rcases List.mem_or_eq_of_mem_set hy with h1 | h1
    · exact .inr h1
    · exact .inl h1
  | case3 heap pos newitem h =>
    intro y hy
    rw [siftdownRec, dif_neg h] at hy
    rcases List.mem_or_eq_of_mem_set hy with h1 | h1
    · exact .inr h1
    · exact .inl h1

theorem siftupRec_mem (lt : α → α → Bool) (heap : List α) (s pos : Nat) (x : α) :
    ∀ y ∈ siftupRec lt heap s pos x, y = x ∨ y ∈ heap := by
  induction heap, s, pos, x using siftupRec.induct lt with
  | case1 heap s pos newitem h h2 ih =>
    intro y hy
    rw [siftupRec] at hy
    simp only [dif_pos h, dif_pos h2] at hy
    rcases ih y hy with h1 | h1
    · exact .inl h1
    · rcases List.mem_or_eq_of_mem_set h1 with h3 | h3
      · exact .inr h3
      · rcases getD_mem_or_eq heap (2 * pos + 2) newitem with h4 | h4
        · exact .inr (h3 ▸ h4)
        · exact .inl (h3.trans h4)
  | case2 heap s pos newitem h h2 ih =>
    intro y hy
    rw [siftupRec] at hy
    simp only [dif_pos h, dif_neg h2] at hy
    rcases ih y hy with h1 | h1
    · exact .inl h1
    · rcases List.mem_or_eq_of_mem_set h1 with h3 | h3
      · exact .inr h3
      · rcases getD_mem_or_eq heap (2 * pos + 1) newitem with h4 | h4
        · exact .inr (h3 ▸ h4)
        · exact .inl (h3.trans h4)
  | case3 heap s pos newitem h =>
    intro y hy
    rw [siftupRec] at hy
    simp only [dif_neg h] at hy
    rcases siftdownRec_mem _ _ _ _ _ y hy with h1 | h1
    · exact .inl h1
    · rcases List.mem_or_eq_of_mem_set h1 with h2 | h2
      · exact .inr h2
      · exact .inl h2

theorem heappush_mem (lt : α → α → Bool) (heap : List α) (x : α) :
    ∀ y ∈ heappush lt heap x, y = x ∨ y ∈ heap := by
  intro y hy
  unfold heappush at hy
  rcases siftdownRec_mem _ _ _ _ _ y hy with h | h
  · exact .inl h
  · rcases List.mem_append.mp h with h1 | h1
    · exact .inr h1
    · exact .inl (List.mem_singleton.mp h1)

theorem heappop_mem (lt : α → α → Bool) (heap : List α) (a : α) (rest : List α)
    (h : heappop lt heap = some (a, rest)) :
    a ∈ heap ∧ ∀ y ∈ rest, y ∈ heap := by
  match heap with
  | [] => simp [heappop] at h
  | x :: xs =>
    have hlast : xs.getLastD x ∈ x :: xs := getLastD_mem xs x
    have hdrop : ∀ z ∈ (x :: xs).dropLast, z ∈ x :: xs :=
      fun z hz => (List.dropLast_sublist (x :: xs)).mem hz
    simp only [heappop] at h
    rcases hd : (x :: xs).dropLast with _ | ⟨y, ys⟩
    · rw [hd] at h
      simp only [Option.some.injEq, Prod.mk.injEq] at h
      refine ⟨h.1 ▸ hlast, ?_⟩
      rw [← h.2]
      intro y hy
      simp at hy
    · rw [hd] at h
      simp only [Option.some.injEq, Prod.mk.injEq] at h
      constructor
      · refine h.1 ▸ hdrop y ?_
        rw [hd]; simp
      · intro z hz
        rw [← h.2] at hz
        rcases siftupRec_mem _ _ _ _ _ z hz with h1 | h1
        · exact h1 ▸ hlast
        · rcases List.mem_or_eq_of_mem_set h1 with h2 | h2
          · exact hdrop z (hd ▸ h2)
          · exact h2 ▸ hlast

/-! ### Small-heap computations (used to evaluate concrete runs) -/

theorem heappop_singleton (lt : α → α → Bool) (a : α) : heappop lt [a] = some (a, []) := rfl

theorem heappop_pair (lt : α → α → Bool) (a b : α) : heappop lt [a, b] = some (a, [b]) := by
  simp only [heappop, List.dropLast, List.getLastD]
  rw [siftupRec]
  norm_num
  rw [siftdownRec]
  norm_num

theorem heappush_nil (lt : α → α → Bool) (x : α) : heappush lt [] x = [x] := by
  unfold heappush
  rw [siftdownRec]
  norm_num

theorem heappush_single (lt : α → α → Bool) (a x : α) :
    heappush lt [a] x = if lt x a then [x, a] else [a, x] := by
  unfold heappush
  rw [siftdownRec]
  norm_num [List.getD]
  split
  · rw [siftdownRec]
    norm_num [List.set]
  · rfl

/-! ### Stable sort lemmas -/

theorem pyInsertStable_length (lt : α → α → Bool) (x : α) (l : List α) :
    (pyInsertStable lt x l).length = l.length + 1 := by
  induction l with
  | nil => rfl
  | cons y ys ih =>
    simp only [pyInsertStable]
    split <;> simp [ih]

theorem pySorted_length (lt : α → α → Bool) (l : List α) :
    (pySorted lt l).length = l.length := by
  induction l with
  | nil => rfl
  | cons x xs ih => simp [pySorted, pyInsertStable_length, ih]

theorem nsmallest_length (n : Nat) (lt : α → α → Bool) (l : List α) :
    (nsmallest n lt l).length = min n l.length := by
  simp [nsmallest, pySorted_length]

theorem pyInsertStable_mem (lt : α → α → Bool) (x : α) (l : List α) (y : α) :
    y ∈ pyInsertStable lt x l ↔ y = x ∨ y ∈ l := by
  induction l with
  | nil => simp [pyInsertStable]
  | cons z zs ih =>
    simp only [pyInsertStable]
    split
    · simp only [List.mem_cons, ih]
      tauto
    · simp only [List.mem_cons]

theorem pySorted_mem (lt : α → α → Bool) (l : List α) (y : α) :
    y ∈ pySorted lt l ↔ y ∈ l := by
  induction l with
  | nil => simp [pySorted]
  | cons x xs ih =>
    simp only [pySorted, pyInsertStable_mem, ih, List.mem_cons]

theorem nsmallest_mem (n : Nat) (lt : α → α → Bool) (l : List α) (y : α)
    (h : y ∈ nsmallest n lt l) : y ∈ l := by
  have := List.take_subset n (pySorted lt l) h
  exact (pySorted_mem lt l y).mp this

theorem chain'_take {r : α → α → Prop} (l : List α) (h : l.Chain' r) (n : Nat) :
    (l.take n).Chain' r :=
  h.prefix (List.take_prefix n l)

theorem pyInsertStable_chain {R : Type} [LinearOrder R] (key : α → R) (x : α)
    (l : List α) (h : l.Chain' fun a b => key a ≤ key b) :
    (pyInsertStable (fun a b => decide (key a < key b)) x l).Chain'
      fun a b => key a ≤ key b := by
  induction l with
  | nil => simp [pyInsertStable]
  | cons y ys ih =>
    simp only [pyInsertStable]
    split
    case isTrue hlt =>
      have hy : key y ≤ key x := le_of_lt (of_decide_eq_true hlt)
      have htail := ih h.tail
      refine List.chain'_cons'.mpr ⟨?_, htail⟩
      intro z hz
      cases ys with
      | nil =>
        simp only [pyInsertStable, List.head?_cons, Option.mem_def,
          Option.some.injEq] at hz
        exact hz ▸ hy
      | cons w ws =>
        have hw : key y ≤ key w := (List.chain'_cons.mp h).1
        simp only [pyInsertStable] at hz
        split at hz <;>
          simp only [List.head?_cons, Option.mem_def, Option.some.injEq] at hz
        · exact hz ▸ hw
        · exact hz ▸ hy
    case isFalse hge =>
      have hx : key x ≤ key y := le_of_not_lt fun hc => hge (decide_eq_true hc)
      exact List.chain'_cons.mpr ⟨hx, h⟩

theorem pySorted_chain {R : Type} [LinearOrder R] (key : α → R) (l : List α) :
    (pySorted (fun a b => decide (key a < key b)) l).Chain'
      fun a b => key a ≤ key b := by
  induction l with
  | nil => simp [pySorted]
  | cons x xs ih => exact pyInsertStable_chain key x _ ih

theorem nsmallest_chain {R : Type} [LinearOrder R] (key : α → R) (n : Nat)
    (l : List α) :
    (nsmallest n (fun a b => decide (key a < key b)) l).Chain'
      fun a b => key a ≤ key b :=
  chain'_take _ (pySorted_chain key l) n

theorem pyInsertStable_head_of_not_lt (lt : α → α → Bool) (x : α) (l : List α)
    (h : ∀ y ∈ l, lt y x = false) :
    pyInsertStable lt x l = x :: l := by
  cases l with
  | nil => rfl
  | cons y ys =>
    simp only [pyInsertStable]
    rw [h y (by simp)]
    simp

theorem pySorted_head_of_min (lt : α → α → Bool) (w : α) (cs : List α)
    (h : ∀ y ∈ cs, lt y w = false) :
    pySorted lt (w :: cs) = w :: pySorted lt cs := by
  simp only [pySorted]
  exact pyInsertStable_head_of_not_lt lt w _ fun y hy =>
    h y ((pySorted_mem lt cs y).mp hy)

theorem nsmallest_head_of_min (n : Nat) (lt : α → α → Bool) (w : α) (cs : List α)
    (hn : 1 ≤ n) (h : ∀ y ∈ cs, lt y w = false) :
    ∃ rest, nsmallest n lt (w :: cs) = w :: rest := by
  unfold nsmallest
  rw [pySorted_head_of_min lt w cs h]
  cases n with
  | zero => omega
  | succ m => exact ⟨(pySorted lt cs).take m, by simp⟩

/-! ### Head preservation for `heappush` (pushing a no-smaller element never
moves the root). -/

theorem head?_set_ne (l : List α) (n : Nat) (v : α) (h : n ≠ 0) :
    (l.set n v).head? = l.head? := by
  cases l with
  | nil => simp
  | cons a as =>
    cases n with
    | zero => omega
    | succ m => simp [List.set]

theorem getD_zero_set_ne (l : List α) (n : Nat) (v d : α) (h : n ≠ 0) :
    (l.set n v).getD 0 d = l.getD 0 d := by
  cases l with
  | nil => simp
  | cons a as =>
    cases n with
    | zero => omega
    | succ m => simp [List.set]

theorem siftdownRec_head (lt : α → α → Bool) :
    ∀ (pos : Nat) (heap : List α) (x : α), 0 < pos →
      lt x (heap.getD 0 x) = false →
      (siftdownRec lt 0 heap pos x).head? = heap.head? := by
  intro pos
  induction pos using Nat.strong_induction_on with
  | _ pos ih =>
    intro heap x hpos hroot
    rw [siftdownRec]
    simp only [dif_pos hpos]
    by_cases hp : (pos - 1) / 2 = 0
    · simp only [hp, hroot, Bool.false_eq_true, if_false]
      exact head?_set_ne _ _ _ (by omega)
    · split
      · rw [ih ((pos - 1) / 2)
            (Nat.lt_of_le_of_lt (Nat.div_le_self _ _) (by omega)) _ x (by omega)
            (by rw [getD_zero_set_ne _ _ _ _ (by omega)]; exact hroot)]
        exact head?_set_ne _ _ _ (by omega)
      · exact head?_set_ne _ _ _ (by omega)

theorem heappush_head (lt : α → α → Bool) (heap : List α) (x : α)
    (hne : heap ≠ []) (hroot : lt x (heap.getD 0 x) = false) :
    (heappush lt heap x).head? = heap.head? := by
  unfold heappush
  cases heap with
  | nil => exact absurd rfl hne
  | cons a as =>
    rw [siftdownRec_head lt (a :: as).length ((a :: as) ++ [x]) x (by simp) ?_]
    · simp
    · simpa using hroot

/-! ## Lemmas about the normalizer's split -/

theorem mk_toList (s : String) : String.mk s.toList = s := by cases s; rfl

theorem splitSpace_ne_nil (l : List Char) : splitSpace l ≠ [] := by
  cases l with
  | nil => simp [splitSpace]
  | cons c cs =>
    simp only [splitSpace]
    split
    · simp
    · split <;> simp

theorem splitSpace_no_space (l : List Char) : ∀ w ∈ splitSpace l, ¬ ' ' ∈ w := by
  induction l with
  | nil =>
    intro w hw
    simp only [splitSpace, List.mem_singleton] at hw
    simp [hw]
  | cons c cs ih =>
    intro w hw
    simp only [splitSpace] at hw
    split at hw
    · rcases List.mem_cons.mp hw with rfl | hw'
      · simp
      · exact ih w hw'
    · rename_i hc
      have hc' : c ≠ ' ' := by
        intro e
        exact hc (by rw [e]; rfl)
      rcases hsp : splitSpace cs with _ | ⟨v, vs⟩
      · exact absurd hsp (splitSpace_ne_nil cs)
      · rw [hsp] at hw
        rcases List.mem_cons.mp hw with rfl | hw'
        · intro hmem
          rcases List.mem_cons.mp hmem with h1 | h1
          · exact hc' h1.symm
          · exact ih v (by rw [hsp]; simp) h1
        · exact ih w (by rw [hsp]; simp [hw'])

theorem joinSpace_splitSpace (l : List Char) : joinSpace (splitSpace l) = l := by
  induction l with
  | nil => rfl
  | cons c cs ih =>
    simp only [splitSpace]
    split
    · rename_i hc
      have hc' : c = ' ' := by
        have := of_decide_eq_true hc
        exact this
      rcases hsp : splitSpace cs with _ | ⟨w, ws⟩
      · exact absurd hsp (splitSpace_ne_nil cs)
      · rw [hsp] at ih
        show ([] : List Char) ++ ' ' :: joinSpace (w :: ws) = c :: cs
        rw [List.nil_append, ih, hc']
    · rcases hsp : splitSpace cs with _ | ⟨w, ws⟩
      · exact absurd hsp (splitSpace_ne_nil cs)
      · rw [hsp] at ih
        cases ws with
        | nil =>
          show c :: w = c :: cs
          show c :: joinSpace [w] = c :: cs
          rw [ih]
        | cons v vs =>
          show (c :: w) ++ ' ' :: joinSpace (v :: vs) = c :: cs
          rw [List.cons_append]
          rw [show w ++ ' ' :: joinSpace (v :: vs) = joinSpace (w :: v :: vs) from rfl, ih]

theorem splitSpace_single (l : List Char) (h : ¬ ' ' ∈ l) : splitSpace l = [l] := by
  induction l with
  | nil => rfl
  | cons c cs ih =>
    have hc : ¬ ((c == ' ') = true) := by
      intro e
      exact h (by rw [of_decide_eq_true e]; simp)
    simp only [splitSpace, if_neg hc]
    rw [ih fun hm => h (List.mem_cons_of_mem c hm)]

theorem splitSpace_two_le (l : List Char) (h : ' ' ∈ l) : 2 ≤ (splitSpace l).length := by
  induction l with
  | nil => simp at h
  | cons c cs ih =>
    simp only [splitSpace]
    split
    · have h1 : 1 ≤ (splitSpace cs).length :=
        List.length_pos.mpr (splitSpace_ne_nil cs)
      simp only [List.length_cons]
      omega
    · rename_i hc
      have hc' : c ≠ ' ' := fun e => hc (by rw [e]; rfl)
      have hcs : ' ' ∈ cs := by
        rcases List.mem_cons.mp h with h1 | h1
        · exact absurd h1.symm hc'
        · exact h1
      rcases hsp : splitSpace cs with _ | ⟨w, ws⟩
      · exact absurd hsp (splitSpace_ne_nil cs)
      · have h2 := ih hcs
        rw [hsp] at h2
        simp only [List.length_cons] at h2 ⊢
        omega

theorem joinSpace_dropLast_getLastD (us : List (List Char)) :
    ∀ (v w : List Char), joinSpace (v :: w :: us) =
      joinSpace ((v :: w :: us).dropLast) ++ ' ' :: ((v :: w :: us).getLastD []) := by
  induction us with
  | nil => intro v w; rfl
  | cons u us ih =>
    intro v w
    have h1 : joinSpace (w :: u :: us) =
        joinSpace ((w :: u :: us).dropLast) ++ ' ' :: ((w :: u :: us).getLastD []) :=
      ih w u
    show v ++ ' ' :: joinSpace (w :: u :: us) =
      (v ++ ' ' :: joinSpace ((w :: u :: us).dropLast)) ++
        ' ' :: ((w :: u :: us).getLastD [])
    rw [h1, List.append_assoc, List.cons_append]

theorem getLastD_default_irrel (l : List α) (a d d' : α) :
    (a :: l).getLastD d = (a :: l).getLastD d' := rfl

/-- Claim C9 (amended): the split checks only for a trailing space character
(U+0020), not arbitrary whitespace; in the multi-word case the unfinished word
carries a leading space.  Precisely: an empty or space-terminated text maps to
`(text, "")`; a space-free text maps to `("", text)`; otherwise the result
`(c, w)` satisfies `c ++ w = text` where `w` is a space followed by the final
space-free field. -/
theorem C9_split_semantics (t : String) :
    ((t = "" ∨ t.toList.getLast? = some ' ') → _extract_unfinished_word t = (t, "")) ∧
    ((t ≠ "" ∧ t.toList.getLast? ≠ some ' ' ∧ ¬ ' ' ∈ t.toList) →
      _extract_unfinished_word t = ("", t)) ∧
    ((t ≠ "" ∧ t.toList.getLast? ≠ some ' ' ∧ ' ' ∈ t.toList) →
      ∃ c w, _extract_unfinished_word t = (c, w) ∧
        c.toList ++ w.toList = t.toList ∧
        w.toList.head? = some ' ' ∧ ¬ ' ' ∈ w.toList.tail) := by
  refine ⟨?_, ?_, ?_⟩
  · intro h
    unfold _extract_unfinished_word
    rw [if_pos h]
  · rintro ⟨h1, h2, h3⟩
    unfold _extract_unfinished_word
    rw [if_neg (by tauto)]
    simp only [splitSpace_single t.toList h3, List.length_singleton, if_true,
      List.headD_cons]
    rw [mk_toList]
  · rintro ⟨h1, h2, h3⟩
    unfold _extract_unfinished_word
    rw [if_neg (by tauto)]
    have hlen := splitSpace_two_le t.toList h3
    rcases hsp : splitSpace t.toList with _ | ⟨v, vs⟩
    · exact absurd hsp (splitSpace_ne_nil t.toList)
    · rcases vs with _ | ⟨w, ws⟩
      · rw [hsp] at hlen; simp at hlen
      · simp only [hsp]
        have hne : (v :: w :: ws).length ≠ 1 := by simp
        rw [if_neg hne]
        refine ⟨_, _, rfl, ?_, rfl, ?_⟩
        · show joinSpace ((v :: w :: ws).dropLast) ++
            ' ' :: ((v :: w :: ws).getLastD []) = t.toList
          rw [← joinSpace_dropLast_getLastD, ← hsp, joinSpace_splitSpace]
        · show ¬ ' ' ∈ (v :: w :: ws).getLastD []
          have hmem : (v :: w :: ws).getLastD [] ∈ v :: w :: ws := by
            have h := getLastD_mem (w :: ws) v
            rcases List.mem_cons.mp h with h' | h'
            · rw [show (v :: w :: ws).getLastD [] = (w :: ws).getLastD v from rfl, h']
              simp
            · rw [show (v :: w :: ws).getLastD [] = (w :: ws).getLastD v from rfl]
              exact List.mem_cons_of_mem v h'
          exact splitSpace_no_space t.toList _ (hsp ▸ hmem)

/-- Claim C9 (counterexample): the cleaned form of `"he\n"` ends in the
whitespace character `'\n'`, yet the splitter treats `"he\n"` as an unfinished
word instead of finished context; and for `"a he"` the unfinished component is
`" he"` (with a leading space), not the bare trailing token `"he"`. -/
theorem C9_counterexample :
    (_clean_context_text "he\n").toList.getLast? = some '\n' ∧
    isPySpace '\n' = true ∧
    _extract_unfinished_word (_clean_context_text "he\n") = ("", "he\n") ∧
    (_extract_unfinished_word "a he").2 = " he" := by
  refine ⟨?_, rfl, ?_, ?_⟩ <;> decide

/-- Witness for C9_split_semantics at the concrete input `"ab c"`. -/
theorem C9_witness :
    (_extract_unfinished_word "ab c").1.toList ++
      (_extract_unfinished_word "ab c").2.toList = "ab c".toList := by
  obtain ⟨c, w, h1, h2, h3, h4⟩ :=
    (C9_split_semantics "ab c").2.2 ⟨by decide, by decide, by decide⟩
  rw [h1]
  exact h2

/-! ## Claim C1: the length-normalisation formula -/

/-- Claim C1 (code bug): at the failing input `raw = 1, len = 1` the
specification's formula `raw × (β + len)^α / (β + 1)^α` evaluates to `1`,
but the code's expression (lines 241-242 and 343-344 of `beam_search.py`,
whose operator precedence gives `raw × (β + len^α / (β + 1)^α)`) evaluates
to `5 + 6^(-0.6) > 5`.  The two formulas disagree because the code drops the
parentheses of the standard GNMT length penalty around `β + len`. -/
theorem C1_formula_divergence :
    specLengthNormalizedScore 1 1 = 1 ∧
    5 < floatOps.normalize 1 1 ∧
    floatOps.normalize 1 1 ≠ specLengthNormalizedScore 1 1 := by
  have h6 : (0 : ℝ) < ((5 : ℝ) + 1) ^ (0.6 : ℝ) := Real.rpow_pos_of_pos (by norm_num) _
  have hspec : specLengthNormalizedScore 1 1 = 1 := by
    unfold specLengthNormalizedScore
    push_cast
    rw [div_self (ne_of_gt h6), mul_one]
  have hcode : 5 < floatOps.normalize 1 1 := by
    show 5 < 1 * (5 + ((1 : ℕ) : ℝ) ^ (0.6 : ℝ) / ((5 : ℝ) + 1) ^ (0.6 : ℝ))
    push_cast
    rw [Real.one_rpow, one_mul]
    have hpos : 0 < 1 / ((5 : ℝ) + 1) ^ (0.6 : ℝ) := by positivity
    linarith
  refine ⟨hspec, hcode, fun hEq => ?_⟩
  rw [hEq, hspec] at hcode
  norm_num at hcode

/-! ## Claim C3: no zero-probability filtering in `_get_top_tokens` -/

theorem enumerateFrom_length (l : List ℚ) : ∀ i, (enumerateFrom i l).length = l.length := by
  induction l with
  | nil => intro i; rfl
  | cons p ps ih => intro i; simp [enumerateFrom, ih]

/-- Claim C3 (amended): `_get_top_tokens` selects purely by probability and
performs no zero-probability filtering: whenever `k` covers the whole
distribution, every enumerated `(token, probability)` pair — zero
probabilities included — appears in the selection, so a zero-probability
token reaches the expansion loop, where evaluating its logarithm raises
(modelled by the `logDomain` error, see the counterexample). -/
theorem C3_no_zero_filter (token_probs : List ℚ) (k : Nat)
    (h : token_probs.length ≤ k) (pr : Nat × ℚ) :
    pr ∈ _get_top_tokens token_probs k ↔ pr ∈ enumerateFrom 0 token_probs := by
  unfold _get_top_tokens
  rw [List.take_of_length_le
    (by rw [pySorted_length, enumerateFrom_length]; exact h)]
  exact pySorted_mem _ _ _

/-- Witness for C3_no_zero_filter: on the distribution `[0, 1]` with
`beam_width = 2`, the zero-probability token `0` is part of the selection. -/
theorem C3_witness : ((0 : Nat), (0 : ℚ)) ∈ _get_top_tokens [0, 1] 2 :=
  (C3_no_zero_filter [0, 1] 2 (by norm_num) (0, 0)).mpr (by decide)

/-- Tokenizer for the C3 counterexample: two alphabetic word-start pieces. -/
def tokC3run : Tokenizer where
  encode s := if s = "a " then [9] else []
  decode l := match l with
    | [0] => "b" | [1] => "a" | _ => ""
  id_to_piece i := match i with
    | 0 => "▁b" | 1 => "▁a" | _ => ""

/-- Oracle for the C3 counterexample: a distribution with an exactly-zero
entry for the (alphabetic, word-start) token `0`. -/
def oracleC3run : OracleModel := fun _ => .ok [0, 1]

set_option maxHeartbeats 1000000 in
/-- Claim C3 (counterexample): on a distribution containing an exactly-zero
probability, the engine does evaluate `log` at `0` - here the whole call
fails with the `math.log` domain error instead of excluding the zero-probability
token from the top-`beam_width` selection. -/
theorem C3_counterexample :
    get_top_k_wordsReal ⟨2, 10⟩ tokC3run oracleC3run "a " 5 = .error .logDomain := by
  have hstep : searchStep floatOps ⟨2, 10⟩ tokC3run oracleC3run [9] ""
      ⟨[⟨0, 0, [], ""⟩], [], [], [], [], [[9]], 0⟩ = .error .logDomain := by
    have h1 : contains_letters_only tokC3run 1 = true := by decide
    have h0 : contains_letters_only tokC3run 0 = true := by decide
    have hs1 : starts_new_word tokC3run 1 = true := by decide
    have hs0 : starts_new_word tokC3run 0 = true := by decide
    have hl1 : pyLStrip (tokC3run.decode [1]) = "a" := by decide
    have hst : pyStrip ("" : String) = "" := by decide
    rw [searchStep]
    rw [show heappop beamLt [(⟨0, 0, [], ""⟩ : BeamItem ℝ)] = some (⟨0, 0, [], ""⟩, [])
      from heappop_singleton _ _]
    norm_num [List.lookup, oracleC3run, expandAndPrune, expandTokens, expandOne,
      completeCurrent, _create_complete_word, h1, h0, hs1, hs0, hl1, hst, floatOps,
      heappush_nil, _get_top_tokens, enumerateFrom, pySorted, pyInsertStable,
      probDescLt]
  have hc : _clean_context_text "a " = "a " := by decide
  have he : _extract_unfinished_word "a " = ("a ", "") := by decide
  have henc : tokC3run.encode "a " = [9] := by decide
  unfold get_top_k_wordsReal get_top_k_words get_top_k_completed
  simp only [hc, he, henc, initialBeam, initialBeamKeys, ne_eq, eq_self_iff_true,
    not_true_eq_false, if_false, List.append_nil]
  rw [searchLoop]
  rw [dif_pos (by norm_num)]
  rw [hstep]

/-! ## Claim C5: the length prune fires at `>=`, not `>` -/

/-- Claim C5 (amended): a popped candidate is discarded by the length prune
exactly when its token count is greater than **or equal to** `max_word_length`
(the source condition is `len(current.tokens) >= self.max_word_length`); the
discarding iteration leaves every other component of the session state
untouched. -/
theorem C5_prune_at_length_ge_max {R : Type} [LinearOrder R] [Add R]
    (ops : ScoreOps R) (cfg : SearchConfig) (tok : Tokenizer) (oracle : OracleModel)
    (ctx : List Nat) (uw : String) (st : SearchState R) (cur : BeamItem R)
    (rest : List (BeamItem R))
    (hpop : heappop beamLt st.beam = some (cur, rest))
    (hlen : cfg.max_word_length ≤ cur.tokens.length) :
    searchStep ops cfg tok oracle ctx uw st = .ok { st with beam := rest } := by
  rw [searchStep, hpop]
  simp only [if_pos hlen]

/-- A score record on `ℚ` used only to exercise the structural parts of the
engine in witnesses (the search control flow never inspects these values on
the exercised paths). -/
def qDummyOps : ScoreOps ℚ where
  negLog p := if p ≤ 0 then none else some (1 - p)
  normalize nlp _ := nlp
  negExp x := x

/-- Witness for C5_prune_at_length_ge_max: a candidate holding exactly
`max_word_length = 2` tokens is discarded by the prune. -/
theorem C5_witness :
    searchStep qDummyOps ⟨3, 2⟩ ⟨fun _ => [], fun _ => "", fun _ => ""⟩
      (fun _ => .ok []) [] ""
      ⟨[⟨0, 0, [1, 2], "he"⟩], [], [], [], [], [[1, 2]], 0⟩ =
      .ok ⟨[], [], [], [], [], [[1, 2]], 0⟩ :=
  C5_prune_at_length_ge_max qDummyOps ⟨3, 2⟩ _ _ [] ""
    ⟨[⟨0, 0, [1, 2], "he"⟩], [], [], [], [], [[1, 2]], 0⟩ ⟨0, 0, [1, 2], "he"⟩ []
    (heappop_singleton _ _) (by norm_num)

/-- Tokenizer for the C5 counterexample: `"he"` encodes to exactly two tokens,
and token `0` is an alphabetic word-start piece that would complete it. -/
def tokC5run : Tokenizer where
  encode s := if s = "he" then [1, 2] else []
  decode l := match l with
    | [0] => "x" | _ => ""
  id_to_piece i := match i with
    | 0 => "▁x" | _ => ""

set_option maxHeartbeats 1000000 in
/-- Claim C5 (counterexample): with `max_word_length = 2` and the unfinished
word `"he"` encoding to exactly 2 tokens (the boundary case the claim says is
kept), the seed candidate is discarded by the length prune and the search
returns no words at all - even though the oracle puts probability 1 on a
word-start token that would have completed `"he"` had the candidate been
expanded. -/
theorem C5_counterexample :
    get_top_k_wordsReal ⟨3, 2⟩ tokC5run (fun _ => .ok [1]) "he" 5 = .ok [] := by
  have hc : _clean_context_text "he" = "he" := by decide
  have he : _extract_unfinished_word "he" = ("", "he") := by decide
  have henc : tokC5run.encode "he" = [1, 2] := by decide
  have henc2 : tokC5run.encode "" = [] := by decide
  have hstep1 : searchStep floatOps ⟨3, 2⟩ tokC5run (fun _ => .ok [1]) [] "he"
      ⟨[⟨0, 0, [1, 2], "he"⟩], [], [], [], [], [[1, 2]], 0⟩ =
      .ok ⟨[], [], [], [], [], [[1, 2]], 0⟩ :=
    C5_prune_at_length_ge_max _ _ _ _ _ _ _ _ _ (heappop_singleton _ _) (by norm_num)
  unfold get_top_k_wordsReal get_top_k_words get_top_k_completed
  simp only [hc, he, henc, henc2, initialBeam, initialBeamKeys, ne_eq,
    eq_self_iff_true, not_true_eq_false, if_false, List.nil_append,
    String.reduceEq, not_false_eq_true, if_true]
  rw [searchLoop.eq_def]
  norm_num [hstep1]
  rw [searchLoop.eq_def]
  norm_num [nsmallest, pySorted, List.isEmpty]

/-! ## Claim C4: oracle exceptions propagate out of `get_top_k_words` -/

theorem heappop_none_iff (lt : α → α → Bool) (l : List α) :
    heappop lt l = none ↔ l = [] := by
  cases l with
  | nil => simp [heappop]
  | cons x xs =>
    simp only [heappop]
    constructor
    · intro h
      split at h <;> simp at h
    · intro h
      simp at h

/-- Claim C4 (amended): an exception raised by `model.predict` is **not**
caught inside `get_top_k_words`: as soon as the first oracle call is reached
(guaranteed when `k ≥ 1`, `beam_width ≥ 1` and the seed candidate survives
the length prune), the whole call aborts with the propagated error instead of
returning the completed words found so far.  The catch sits one layer up, in
`prediction_service._generate_predictions`, which falls back to dummy
predictions. -/
theorem C4_oracle_error_propagates {R : Type} [LinearOrder R] [Add R] [Zero R]
    (ops : ScoreOps R) (cfg : SearchConfig) (tok : Tokenizer) (oracle : OracleModel)
    (s : String) (k : Nat)
    (horacle : ∀ inp, oracle inp = .error ())
    (hk : 1 ≤ k) (hbw : 1 ≤ cfg.beam_width)
    (hlen : (if (_extract_unfinished_word (_clean_context_text s)).2 ≠ "" then
        tok.encode (_extract_unfinished_word (_clean_context_text s)).2
      else []).length < cfg.max_word_length) :
    get_top_k_words ops cfg tok oracle s k = .error .oracleRaised := by
  unfold get_top_k_words get_top_k_completed
  simp only []
  set uw := (_extract_unfinished_word (_clean_context_text s)).2 with huw
  have hbeam : initialBeam (R := R) tok uw =
      [⟨0, 0, if uw ≠ "" then tok.encode uw else [], if uw ≠ "" then uw else ""⟩] := by
    unfold initialBeam
    split
    · rename_i h
      simp [if_pos h]
    · rename_i h
      simp [if_neg h]
  rw [hbeam, searchLoop.eq_def,
    dif_pos ⟨rfl, by show 0 < k; omega,
      Nat.mul_pos (Nat.mul_pos hk hbw) (by norm_num)⟩,
    searchStep.eq_def]
  simp only [heappop_singleton, List.not_mem_nil, if_false, List.lookup, horacle,
    if_neg (show ¬ cfg.max_word_length ≤
      (if uw ≠ "" then tok.encode uw else []).length by omega)]

/-- Tokenizer for the C4 counterexample. -/
def tokC4run : Tokenizer where
  encode _ := [7]
  decode _ := ""
  id_to_piece _ := ""

set_option maxHeartbeats 1000000 in
/-- Claim C4 (counterexample): with an oracle whose `predict` raises on the
very first call, `get_top_k_words` does not return the empty list of
already-found CompletedWords - it propagates the failure to its caller. -/
theorem C4_counterexample :
    get_top_k_wordsReal ⟨2, 10⟩ tokC4run (fun _ => .error ()) "c " 1 =
      .error .oracleRaised := by
  have hc : _clean_context_text "c " = "c " := by decide
  have he : _extract_unfinished_word "c " = ("c ", "") := by decide
  unfold get_top_k_wordsReal get_top_k_words get_top_k_completed
  simp only [hc, he, initialBeam, initialBeamKeys, ne_eq, eq_self_iff_true,
    not_true_eq_false, if_false, List.append_nil]
  rw [searchLoop.eq_def]
  rw [dif_pos (by norm_num)]
  rw [searchStep.eq_def]
  simp only [heappop_singleton, List.not_mem_nil, if_false, List.lookup]
  norm_num [tokC4run]

/-- Witness for C4_oracle_error_propagates at a concrete always-raising
oracle. -/
theorem C4_witness :
    get_top_k_wordsReal ⟨2, 10⟩ ⟨fun _ => [7], fun _ => "", fun _ => ""⟩
      (fun _ => .error ()) "b " 1 = .error .oracleRaised :=
  C4_oracle_error_propagates floatOps ⟨2, 10⟩ _ _ "b " 1 (fun _ => rfl)
    (by norm_num) (by norm_num) (by decide)

/-! ## Claim C8: the beam-width bound -/

theorem heappop_length (lt : α → α → Bool) (heap : List α) (a : α)
    (rest : List α) (h : heappop lt heap = some (a, rest)) :
    rest.length = heap.length - 1 := by
  match heap with
  | [] => simp [heappop] at h
  | x :: xs =>
    simp only [heappop] at h
    rcases hd : (x :: xs).dropLast with _ | ⟨y, ys⟩
    · rw [hd] at h
      simp only [Option.some.injEq, Prod.mk.injEq] at h
      have : (x :: xs).dropLast.length = xs.length := by simp
      rw [hd] at this
      simp only [List.length_nil] at this
      rw [← h.2]
      simp [← this]
    · rw [hd] at h
      simp only [Option.some.injEq, Prod.mk.injEq] at h
      rw [← h.2]
      rw [siftupRec_length, List.length_set]
      have : (x :: xs).dropLast.length = xs.length := by simp
      rw [hd] at this
      simp [this]

/-- Claim C8: one full iteration of the search loop re-establishes the bound
`beam.length ≤ beam_width`, whatever was pushed during the iteration:
the early-continue paths only shrink the beam, and the closing
`heapq.nsmallest(beam_width, beam)` prune enforces the bound on the expansion
path.  The hypothesis is the loop invariant (the beam starts as a singleton
and every previous iteration ends `≤ beam_width`). -/
theorem C8_beam_width_bound {R : Type} [LinearOrder R] [Add R]
    (ops : ScoreOps R) (cfg : SearchConfig) (tok : Tokenizer) (oracle : OracleModel)
    (ctx : List Nat) (uw : String) (st st' : SearchState R)
    (hstep : searchStep ops cfg tok oracle ctx uw st = .ok st')
    (hin : st.beam.length ≤ max 1 cfg.beam_width) :
    st'.beam.length ≤ cfg.beam_width := by
  have hEP : ∀ (cur : BeamItem R) (tnt : List (Nat × ℚ)) (stX : SearchState R),
      expandAndPrune ops cfg tok ctx uw cur tnt stX = .ok st' →
      st'.beam.length ≤ cfg.beam_width := by
    intro cur tnt stX hok
    unfold expandAndPrune at hok
    split at hok
    · exact absurd hok (by simp)
    · simp only [Except.ok.injEq] at hok
      rw [← hok]
      simp only
      rw [nsmallest_length]
      omega
  unfold searchStep at hstep
  split at hstep
  · rename_i heq
    have hnil : st.beam = [] := (heappop_none_iff _ _).mp heq
    simp only [Except.ok.injEq] at hstep
    rw [← hstep]
    simp [hnil]
  · rename_i current beamRest heq
    have hrest : beamRest.length = st.beam.length - 1 := heappop_length _ _ _ _ heq
    have hrest' : beamRest.length ≤ cfg.beam_width := by omega
    split at hstep
    · simp only [Except.ok.injEq] at hstep
      rw [← hstep]
      exact hrest'
    · by_cases hmem : ctx ++ current.tokens ∈ st.explored
      · rw [if_pos hmem] at hstep
        simp only [Except.ok.injEq] at hstep
        rw [← hstep]
        exact hrest'
      · rw [if_neg hmem] at hstep
        simp only [] at hstep
        repeat' split at hstep
        all_goals first
          | exact absurd hstep (by simp)
          | exact hEP _ _ _ hstep

/-- Witness for C8_beam_width_bound: a concrete pruning iteration. -/
theorem C8_witness :
    searchStep qDummyOps ⟨3, 1⟩ ⟨fun _ => [], fun _ => "", fun _ => ""⟩
      (fun _ => .ok []) [] ""
      ⟨[⟨0, 0, [4], "y"⟩], [], [], [], [], [[4]], 0⟩ =
      .ok ⟨[], [], [], [], [], [[4]], 0⟩ ∧
    ([] : List (BeamItem ℚ)).length ≤ 3 := by
  have h : searchStep qDummyOps ⟨3, 1⟩ ⟨fun _ => [], fun _ => "", fun _ => ""⟩
      (fun _ => .ok []) [] ""
      ⟨[⟨0, 0, [4], "y"⟩], [], [], [], [], [[4]], 0⟩ =
      .ok ⟨[], [], [], [], [], [[4]], 0⟩ := by
    rw [searchStep, heappop_singleton]
    norm_num
  exact ⟨h, C8_beam_width_bound qDummyOps ⟨3, 1⟩ _ _ [] "" _ _ h (by norm_num)⟩

/-! ## Claim C7: termination within the iteration bound, no errors -/

/-- A valid probability list in the sense of the spec's numeric semantics:
every entry lies in `(0, 1]`. -/
def ValidProbs (l : List ℚ) : Prop := ∀ p ∈ l, 0 < p ∧ p ≤ 1

/-- Every probability stored in the session cache is positive. -/
def CacheOk (c : List (List Nat × List (Nat × ℚ))) : Prop :=
  ∀ kv ∈ c, ∀ pr ∈ kv.2, 0 < pr.2

theorem enumerateFrom_mem (l : List ℚ) :
    ∀ (i : Nat) (pr : Nat × ℚ), pr ∈ enumerateFrom i l → pr.2 ∈ l := by
  induction l with
  | nil => intro i pr h; simp [enumerateFrom] at h
  | cons p ps ih =>
    intro i pr h
    simp only [enumerateFrom, List.mem_cons] at h
    rcases h with rfl | h
    · simp
    · exact List.mem_cons_of_mem _ (ih _ _ h)

theorem top_tokens_prob_mem (probs : List ℚ) (k : Nat) (pr : Nat × ℚ)
    (h : pr ∈ _get_top_tokens probs k) : pr.2 ∈ probs := by
  unfold _get_top_tokens at h
  exact enumerateFrom_mem probs 0 pr ((pySorted_mem _ _ _).mp (List.take_subset _ _ h))

theorem lookup_mem {κ ν : Type} [BEq κ] [LawfulBEq κ] (c : List (κ × ν)) (key : κ)
    (v : ν) (h : c.lookup key = some v) : (key, v) ∈ c := by
  induction c with
  | nil => simp [List.lookup] at h
  | cons kv c ih =>
    obtain ⟨a, b⟩ := kv
    simp only [List.lookup] at h
    split at h
    · rename_i hbeq
      simp only [Option.some.injEq] at h
      have : key = a := eq_of_beq hbeq
      subst this
      rw [h]
      simp
    · exact List.mem_cons_of_mem _ (ih h)

theorem floatOps_negLog_pos (p : ℚ) (hp : 0 < p) :
    floatOps.negLog p = some (-Real.log (p : ℝ)) := by
  show (if p ≤ 0 then none else some (-Real.log (p : ℝ))) = _
  rw [if_neg (not_le.mpr hp)]

theorem expandOne_ok (tok : Tokenizer) (ctx : List Nat) (uw : String)
    (cur : BeamItem ℝ) (t : Nat × ℚ) (st : SearchState ℝ) (ht : 0 < t.2) :
    ∃ st', expandOne floatOps tok ctx uw cur t st = .ok st' ∧
      st'.prob_cache = st.prob_cache := by
  have hcc : ∀ s0 : SearchState ℝ,
      (completeCurrent floatOps cur s0).prob_cache = s0.prob_cache := by
    intro s0
    unfold completeCurrent
    split
    · rfl
    · split <;> rfl
  unfold expandOne
  split
  · exact ⟨st, rfl, rfl⟩
  · split
    · split
      · exact ⟨_, rfl, hcc st⟩
      · by_cases hstrip : pyStrip cur.text ≠ ""
        · rw [if_pos hstrip, floatOps_negLog_pos t.2 ht]
          simp only []
          split
          · exact ⟨_, rfl, hcc st⟩
          · exact ⟨_, rfl, hcc st⟩
        · rw [if_neg hstrip, floatOps_negLog_pos t.2 ht]
          simp only []
          split
          · exact ⟨_, rfl, rfl⟩
          · exact ⟨_, rfl, rfl⟩
    · unfold _create_new_beam_item
      rw [floatOps_negLog_pos t.2 ht]
      simp only []
      split
      · exact ⟨_, rfl, rfl⟩
      · exact ⟨_, rfl, rfl⟩

theorem expandTokens_ok (tok : Tokenizer) (ctx : List Nat) (uw : String)
    (cur : BeamItem ℝ) :
    ∀ (tnt : List (Nat × ℚ)) (st : SearchState ℝ),
      (∀ pr ∈ tnt, 0 < pr.2) →
      ∃ st', expandTokens floatOps tok ctx uw cur tnt st = .ok st' ∧
        st'.prob_cache = st.prob_cache := by
  intro tnt
  induction tnt with
  | nil => intro st _; exact ⟨st, rfl, rfl⟩
  | cons t ts ih =>
    intro st hpos
    obtain ⟨st1, h1, hc1⟩ := expandOne_ok tok ctx uw cur t st (hpos t (by simp))
    obtain ⟨st2, h2, hc2⟩ := ih st1 fun pr hpr => hpos pr (List.mem_cons_of_mem _ hpr)
    refine ⟨st2, ?_, hc2.trans hc1⟩
    unfold expandTokens
    rw [h1]
    simp only []
    exact h2

theorem expandAndPrune_ok (cfg : SearchConfig) (tok : Tokenizer) (ctx : List Nat)
    (uw : String) (cur : BeamItem ℝ) (tnt : List (Nat × ℚ)) (st : SearchState ℝ)
    (htnt : ∀ pr ∈ tnt, 0 < pr.2) :
    ∃ st', expandAndPrune floatOps cfg tok ctx uw cur tnt st = .ok st' ∧
      st'.prob_cache = st.prob_cache := by
  obtain ⟨st1, h1, hc1⟩ := expandTokens_ok tok ctx uw cur tnt st htnt
  unfold expandAndPrune
  rw [h1]
  exact ⟨_, rfl, hc1⟩

theorem searchStep_ok (cfg : SearchConfig) (tok : Tokenizer) (oracle : OracleModel)
    (ctx : List Nat) (uw : String) (st : SearchState ℝ)
    (hvalid : ∀ inp, ∃ l, oracle inp = .ok l ∧ ValidProbs l)
    (hcache : CacheOk st.prob_cache) :
    ∃ st', searchStep floatOps cfg tok oracle ctx uw st = .ok st' ∧
      CacheOk st'.prob_cache := by
  unfold searchStep
  split
  · exact ⟨st, rfl, hcache⟩
  · rename_i current beamRest heq
    split
    · exact ⟨_, rfl, hcache⟩
    · by_cases hmem : ctx ++ current.tokens ∈
        ({ st with beam := beamRest } : SearchState ℝ).explored
      · rw [if_pos hmem]
        exact ⟨_, rfl, hcache⟩
      · rw [if_neg hmem]
        simp only []
        cases hlook : List.lookup (ctx ++ current.tokens) st.prob_cache with
        | some tnt =>
          simp only []
          have htnt : ∀ pr ∈ tnt, 0 < pr.2 :=
            hcache _ (lookup_mem _ _ _ hlook)
          obtain ⟨st', h', hc'⟩ := expandAndPrune_ok cfg tok ctx uw current tnt _ htnt
          refine ⟨st', h', ?_⟩
          rw [hc']
          exact hcache
        | none =>
          obtain ⟨probs, hpeq, hppos⟩ := hvalid (ctx ++ current.tokens)
          simp only []
          rw [hpeq]
          simp only []
          have htnt : ∀ pr ∈ _get_top_tokens probs cfg.beam_width, 0 < pr.2 :=
            fun pr hpr => (hppos _ (top_tokens_prob_mem _ _ _ hpr)).1
          obtain ⟨st', h', hc'⟩ := expandAndPrune_ok cfg tok ctx uw current _ _ htnt
          refine ⟨st', h', ?_⟩
          rw [hc']
          intro kv hkv
          rcases List.mem_cons.mp hkv with rfl | hkv'
          · exact htnt
          · exact hcache _ hkv'

theorem searchLoop_ok (cfg : SearchConfig) (tok : Tokenizer) (oracle : OracleModel)
    (ctx : List Nat) (uw : String) (k maxIter : Nat)
    (hvalid : ∀ inp, ∃ l, oracle inp = .ok l ∧ ValidProbs l) :
    ∀ (d it : Nat) (st : SearchState ℝ), maxIter - it = d → it ≤ maxIter →
      CacheOk st.prob_cache →
      ∃ st' n, searchLoop floatOps cfg tok oracle ctx uw k maxIter it st =
        .ok (st', n) ∧ n ≤ maxIter := by
  intro d
  induction d using Nat.strong_induction_on with
  | _ d ih =>
    intro it st hd hle hcache
    rw [searchLoop.eq_def]
    split
    · rename_i hguard
      obtain ⟨st1, hst1, hc1⟩ := searchStep_ok cfg tok oracle ctx uw st hvalid hcache
      rw [hst1]
      exact ih (maxIter - (it + 1)) (by omega) (it + 1) st1 rfl (by omega) hc1
    · exact ⟨st, it, rfl, hle⟩

/-- Claim C7: for every oracle returning valid probability distributions
(entries in `(0, 1]`) and every `k ≥ 1`, the search loop runs at most
`max_iterations = k × beam_width × 10` iterations, never raises, and
`get_top_k_words` returns a (possibly empty) result list. -/
theorem C7_termination (cfg : SearchConfig) (tok : Tokenizer) (oracle : OracleModel)
    (context_text : String) (k : Nat) (hk : 1 ≤ k)
    (hvalid : ∀ inp, ∃ l, oracle inp = .ok l ∧ ∀ p ∈ l, 0 < p ∧ p ≤ 1) :
    (∃ st n, searchLoop floatOps cfg tok oracle
        (tok.encode (_extract_unfinished_word (_clean_context_text context_text)).1)
        (_extract_unfinished_word (_clean_context_text context_text)).2
        k (k * cfg.beam_width * 10) 0
        ⟨initialBeam tok (_extract_unfinished_word (_clean_context_text context_text)).2,
          [], [], [], [],
          initialBeamKeys tok
            (tok.encode (_extract_unfinished_word (_clean_context_text context_text)).1)
            (_extract_unfinished_word (_clean_context_text context_text)).2, 0⟩ =
        .ok (st, n) ∧ n ≤ k * cfg.beam_width * 10) ∧
    ∃ res, get_top_k_wordsReal cfg tok oracle context_text k = .ok res := by
  obtain ⟨st', n, hloop, hn⟩ :=
    searchLoop_ok cfg tok oracle
      (tok.encode (_extract_unfinished_word (_clean_context_text context_text)).1)
      (_extract_unfinished_word (_clean_context_text context_text)).2
      k (k * cfg.beam_width * 10) hvalid (k * cfg.beam_width * 10) 0
      ⟨initialBeam tok (_extract_unfinished_word (_clean_context_text context_text)).2,
        [], [], [], [],
        initialBeamKeys tok
          (tok.encode (_extract_unfinished_word (_clean_context_text context_text)).1)
          (_extract_unfinished_word (_clean_context_text context_text)).2, 0⟩
      rfl (by omega) (by intro kv hkv; simp at hkv)
  refine ⟨⟨st', n, hloop, hn⟩, ?_⟩
  unfold get_top_k_wordsReal get_top_k_words get_top_k_completed
  simp only []
  rw [hloop]
  exact ⟨_, rfl⟩

/-- Witness for C7_termination: a concrete uniform oracle. -/
theorem C7_witness :
    ∃ res, get_top_k_wordsReal ⟨2, 10⟩ ⟨fun _ => [3], fun _ => "", fun _ => ""⟩
      (fun _ => .ok [1/2, 1/2]) "x" 1 = .ok res :=
  (C7_termination ⟨2, 10⟩ ⟨fun _ => [3], fun _ => "", fun _ => ""⟩
    (fun _ => .ok [1/2, 1/2]) "x" 1 (by norm_num)
    (fun inp => ⟨[1/2, 1/2], rfl, by
      intro p hp
      simp only [List.mem_cons, List.not_mem_nil, or_false, or_self] at hp
      subst hp
      norm_num⟩)).2

/-! ## Claim C6: completion mode only returns extensions of the unfinished
word; next-word mode carries no prefix constraint -/

theorem isAlphaPy_not_space (c : Char) (h : isAlphaPy c = true) :
    isPySpace c = false := by
  by_contra hne
  have hsp : isPySpace c = true := by
    revert hne
    cases isPySpace c <;> simp
  unfold isPySpace at hsp
  simp only [Bool.or_eq_true, beq_iff_eq] at hsp
  rcases hsp with ((((h1 | h1) | h1) | h1) | h1) | h1 <;> subst h1 <;>
    exact absurd h (by decide)

theorem pyIsAlpha_all (s : String) (h : pyIsAlpha s = true) :
    ∀ c ∈ s.toList, isAlphaPy c = true := by
  unfold pyIsAlpha at h
  simp only [Bool.and_eq_true, List.all_eq_true] at h
  exact h.2

theorem rstrip_prefix_self (l : List Char) : rstripChars l <+: l := by
  unfold rstripChars
  have h := List.dropWhile_suffix (l := l.reverse) (p := isPySpace)
  have := List.reverse_prefix.mpr h
  simpa using this

theorem lstrip_append (u s : List Char) (hs : ∀ c ∈ s, isPySpace c = false) :
    lstripChars (u ++ s) = lstripChars u ++ s := by
  induction u with
  | nil =>
    simp only [List.nil_append]
    unfold lstripChars
    cases s with
    | nil => rfl
    | cons c cs =>
      rw [List.dropWhile_cons]
      rw [hs c (by simp)]
      simp
  | cons c u' ih =>
    unfold lstripChars at ih ⊢
    rw [List.cons_append, List.dropWhile_cons, List.dropWhile_cons]
    cases hc : isPySpace c with
    | true => simpa using ih
    | false => simp

theorem rstrip_append_no_space (l s : List Char) (hne : s ≠ [])
    (hs : ∀ c ∈ s, isPySpace c = false) : rstripChars (l ++ s) = l ++ s := by
  unfold rstripChars
  rw [List.reverse_append]
  cases hrev : s.reverse with
  | nil => exact absurd (by simpa using hrev) hne
  | cons c cs =>
    have hc : isPySpace c = false := by
      refine hs c ?_
      have : c ∈ s.reverse := by rw [hrev]; simp
      simpa using this
    rw [List.cons_append, List.dropWhile_cons, hc]
    simp only [Bool.false_eq_true, if_false]
    rw [← List.cons_append, ← hrev, List.reverse_append]
    simp

theorem pyStrip_append_prefix (uw : String) (sfx : List Char)
    (hsfx : ∀ c ∈ sfx, isPySpace c = false) :
    (pyStrip uw).toList <+: rstripChars (lstripChars (uw.toList ++ sfx)) := by
  cases hne : sfx with
  | nil =>
    simp only [List.append_nil]
    exact List.prefix_refl _
  | cons c cs =>
    rw [← hne]
    have hsne : sfx ≠ [] := by rw [hne]; simp
    rw [lstrip_append uw.toList sfx hsfx,
      rstrip_append_no_space (lstripChars uw.toList) sfx hsne hsfx]
    show (pyStrip uw).toList <+: lstripChars uw.toList ++ sfx
    have h1 : (pyStrip uw).toList = rstripChars (lstripChars uw.toList) := rfl
    rw [h1]
    exact (rstrip_prefix_self (lstripChars uw.toList)).trans (List.prefix_append _ _)

theorem string_toList_append (a b : String) :
    (a ++ b).toList = a.toList ++ b.toList := rfl

/-- Every candidate's text is the unfinished word followed by a whitespace-free
suffix (the decoded continuation tokens). -/
def NoSpaceSuffix {R : Type} (uw : String) (b : BeamItem R) : Prop :=
  ∃ sfx : List Char, b.text.toList = uw.toList ++ sfx ∧
    ∀ c ∈ sfx, isPySpace c = false

/-- The completion-mode search invariant: every beam candidate extends the
unfinished word with letters only, and every completed word's text starts
with the stripped unfinished word. -/
def C6Inv {R : Type} (uw : String) (st : SearchState R) : Prop :=
  (∀ b ∈ st.beam, NoSpaceSuffix uw b) ∧
  (∀ w ∈ st.completed_words, (pyStrip uw).toList <+: w.text.toList)

theorem completeCurrent_beam {R : Type} [LinearOrder R] (ops : ScoreOps R)
    (cur : BeamItem R) (st : SearchState R) :
    (completeCurrent ops cur st).beam = st.beam := by
  unfold completeCurrent
  split
  · rfl
  · split <;> rfl

theorem completeCurrent_completed {R : Type} [LinearOrder R] (ops : ScoreOps R)
    (cur : BeamItem R) (st : SearchState R) :
    ∀ w ∈ (completeCurrent ops cur st).completed_words,
      w ∈ st.completed_words ∨ w.text = pyStrip cur.text := by
  intro w hw
  unfold completeCurrent at hw
  split at hw
  · exact .inl hw
  · rename_i cw hcw
    split at hw
    · rcases heappush_mem _ _ _ w hw with rfl | h
      · right
        unfold _create_complete_word at hcw
        simp only [] at hcw
        split at hcw
        · simp only [Option.some.injEq] at hcw
          rw [← hcw]
        · simp at hcw
      · exact .inl h
    · exact .inl hw

theorem expandOne_completion_mode {R : Type} [LinearOrder R] [Add R]
    (ops : ScoreOps R) (tok : Tokenizer) (ctx : List Nat) (uw : String)
    (cur : BeamItem R) (t : Nat × ℚ) (st st' : SearchState R)
    (huw : uw ≠ "") (hok : expandOne ops tok ctx uw cur t st = .ok st') :
    (∀ b ∈ st'.beam, b ∈ st.beam ∨
      (b.text = cur.text ++ tok.decode [t.1] ∧ contains_letters_only tok t.1 = true)) ∧
    (∀ w ∈ st'.completed_words, w ∈ st.completed_words ∨ w.text = pyStrip cur.text) := by
  unfold expandOne at hok
  split at hok
  · simp only [Except.ok.injEq] at hok
    rw [← hok]
    exact ⟨fun b hb => .inl hb, fun w hw => .inl hw⟩
  · rename_i halpha
    have halpha' : contains_letters_only tok t.1 = true := by
      revert halpha
      cases contains_letters_only tok t.1 <;> simp
    split at hok
    · simp only [Except.ok.injEq] at hok
      rw [← hok]
      refine ⟨?_, completeCurrent_completed ops cur st⟩
      rw [completeCurrent_beam]
      exact fun b hb => .inl hb
    · unfold _create_new_beam_item at hok
      cases hnl : ops.negLog t.2 with
      | none => rw [hnl] at hok; simp at hok
      | some nl =>
        rw [hnl] at hok
        simp only [] at hok
        split at hok
        · simp only [Except.ok.injEq] at hok
          rw [← hok]
          refine ⟨?_, fun w hw => .inl hw⟩
          intro b hb
          rcases heappush_mem _ _ _ b hb with rfl | h
          · exact .inr ⟨rfl, halpha'⟩
          · exact .inl h
        · simp only [Except.ok.injEq] at hok
          rw [← hok]
          exact ⟨fun b hb => .inl hb, fun w hw => .inl hw⟩

theorem expandTokens_C6 {R : Type} [LinearOrder R] [Add R] (ops : ScoreOps R)
    (tok : Tokenizer) (ctx : List Nat) (uw : String) (cur : BeamItem R)
    (huw : uw ≠ "") (hcur : NoSpaceSuffix uw cur) :
    ∀ (tnt : List (Nat × ℚ)) (st : SearchState R),
      (∀ b ∈ st.beam, NoSpaceSuffix uw b) →
      (∀ w ∈ st.completed_words, (pyStrip uw).toList <+: w.text.toList) →
      ∀ st', expandTokens ops tok ctx uw cur tnt st = .ok st' →
      (∀ b ∈ st'.beam, NoSpaceSuffix uw b) ∧
      (∀ w ∈ st'.completed_words, (pyStrip uw).toList <+: w.text.toList) := by
  intro tnt
  induction tnt with
  | nil =>
    intro st hb hw st' hok
    unfold expandTokens at hok
    simp only [Except.ok.injEq] at hok
    rw [← hok]
    exact ⟨hb, hw⟩
  | cons t ts ih =>
    intro st hb hw st' hok
    unfold expandTokens at hok
    cases h1 : expandOne ops tok ctx uw cur t st with
    | error e => rw [h1] at hok; simp at hok
    | ok st1 =>
      rw [h1] at hok
      simp only [] at hok
      have hmid := expandOne_completion_mode ops tok ctx uw cur t st st1 huw h1
      refine ih st1 ?_ ?_ st' hok
      · intro b hbmem
        rcases hmid.1 b hbmem with h | ⟨htext, halpha⟩
        · exact hb b h
        · obtain ⟨sfx, hsfx1, hsfx2⟩ := hcur
          refine ⟨sfx ++ (tok.decode [t.1]).toList, ?_, ?_⟩
          · rw [htext, string_toList_append, hsfx1, List.append_assoc]
          · intro c hc
            rcases List.mem_append.mp hc with h | h
            · exact hsfx2 c h
            · exact isAlphaPy_not_space c (pyIsAlpha_all _ halpha c h)
      · intro w hwmem
        rcases hmid.2 w hwmem with h | h
        · exact hw w h
        · rw [h]
          obtain ⟨sfx, hsfx1, hsfx2⟩ := hcur
          have h2 : (pyStrip cur.text).toList =
              rstripChars (lstripChars (uw.toList ++ sfx)) := by
            show rstripChars (lstripChars cur.text.toList) = _
            rw [hsfx1]
          rw [h2]
          exact pyStrip_append_prefix uw sfx hsfx2

theorem searchStep_C6 {R : Type} [LinearOrder R] [Add R] (ops : ScoreOps R)
    (cfg : SearchConfig) (tok : Tokenizer) (oracle : OracleModel) (ctx : List Nat)
    (uw : String) (huw : uw ≠ "") (st st' : SearchState R)
    (hok : searchStep ops cfg tok oracle ctx uw st = .ok st')
    (hI : C6Inv uw st) : C6Inv uw st' := by
  unfold searchStep at hok
  split at hok
  · simp only [Except.ok.injEq] at hok
    rw [← hok]
    exact hI
  · rename_i current beamRest heq
    have hpop := heappop_mem _ _ _ _ heq
    have hcur : NoSpaceSuffix uw current := hI.1 current hpop.1
    have hrest : ∀ b ∈ beamRest, NoSpaceSuffix uw b :=
      fun b hb => hI.1 b (hpop.2 b hb)
    have hEPC : ∀ (tnt : List (Nat × ℚ)) (stX : SearchState R),
        stX.beam = beamRest → stX.completed_words = st.completed_words →
        expandAndPrune ops cfg tok ctx uw current tnt stX = .ok st' →
        C6Inv uw st' := by
      intro tnt stX hbX hcX hok2
      unfold expandAndPrune at hok2
      cases hexp : expandTokens ops tok ctx uw current tnt stX with
      | error e => rw [hexp] at hok2; simp at hok2
      | ok st3 =>
        rw [hexp] at hok2
        simp only [Except.ok.injEq] at hok2
        obtain ⟨hb3, hw3⟩ := expandTokens_C6 ops tok ctx uw current huw hcur tnt stX
          (by rw [hbX]; exact hrest) (by rw [hcX]; exact hI.2) st3 hexp
        rw [← hok2]
        exact ⟨fun b hb => hb3 b (nsmallest_mem _ _ _ _ hb), hw3⟩
    split at hok
    · simp only [Except.ok.injEq] at hok
      rw [← hok]
      exact ⟨hrest, hI.2⟩
    · by_cases hmem : ctx ++ current.tokens ∈ st.explored
      · rw [if_pos hmem] at hok
        simp only [Except.ok.injEq] at hok
        rw [← hok]
        exact ⟨hrest, hI.2⟩
      · rw [if_neg hmem] at hok
        simp only [] at hok
        repeat' split at hok
        all_goals try exact absurd hok (by simp)
        all_goals rename_i heq2
        all_goals repeat' split at heq2
        all_goals first
          | (simp only [Except.ok.injEq, Prod.mk.injEq] at heq2
             exact hEPC _ _ (by rw [← heq2.2]) (by rw [← heq2.2]) hok)
          | exact absurd heq2 (by simp)

/-- Any predicate preserved by one iteration is preserved by the whole loop. -/
theorem searchLoop_inv {R : Type} [LinearOrder R] [Add R] (ops : ScoreOps R)
    (cfg : SearchConfig) (tok : Tokenizer) (oracle : OracleModel) (ctx : List Nat)
    (uw : String) (k maxIter : Nat) (I : SearchState R → Prop)
    (hstep : ∀ st st', searchStep ops cfg tok oracle ctx uw st = .ok st' → I st → I st') :
    ∀ (d it : Nat) (st : SearchState R) (st' : SearchState R) (n : Nat),
      maxIter - it = d →
      searchLoop ops cfg tok oracle ctx uw k maxIter it st = .ok (st', n) →
      I st → I st' := by
  intro d
  induction d using Nat.strong_induction_on with
  | _ d ih =>
    intro it st st' n hd hloop hI
    rw [searchLoop.eq_def] at hloop
    split at hloop
    · rename_i hcond
      cases hs : searchStep ops cfg tok oracle ctx uw st with
      | error e => rw [hs] at hloop; simp at hloop
      | ok st1 =>
        rw [hs] at hloop
        simp only [] at hloop
        have hlt : maxIter - (it + 1) < d := by omega
        exact ih _ hlt (it + 1) st1 st' n rfl hloop (hstep st st1 hs hI)
    · simp only [Except.ok.injEq, Prod.mk.injEq] at hloop
      rw [← hloop.1]
      exact hI

/-- Tokenizer for the C6 next-word-mode run: token `0` is the alphabetic
word-start piece `▁cat`, token `1` a non-alphabetic filler. -/
def tokC6run : Tokenizer where
  encode s := if s = "he " then [7] else []
  decode l := match l with
    | [0] => "cat" | _ => "?"
  id_to_piece i := match i with
    | 0 => "▁cat" | _ => "?"

/-- Oracle for the C6 next-word-mode run. -/
def oracleC6run : OracleModel := fun _ => .ok [1/2, 1/100]

set_option maxHeartbeats 1000000 in
/-- On context `"he "` (trailing space: next-word mode) the engine returns the
word `"cat"`, which does not extend `"he"`. -/
theorem nextword_run_cat :
    get_top_k_wordsReal ⟨2, 10⟩ tokC6run oracleC6run "he " 1 =
      .ok [("cat", (1/2 : ℝ), 1)] := by
  have hc : _clean_context_text "he " = "he " := by decide
  have he' : _extract_unfinished_word "he " = ("he ", "") := by decide
  have henc : tokC6run.encode "he " = [7] := by decide
  have h0a : contains_letters_only tokC6run 0 = true := by decide
  have h1a : contains_letters_only tokC6run 1 = false := by decide
  have hs0 : starts_new_word tokC6run 0 = true := by decide
  have hl0 : pyLStrip (tokC6run.decode [0]) = "cat" := by decide
  have hstE : pyStrip ("" : String) = "" := by decide
  have hstC : pyStrip ("cat" : String) = "cat" := by decide
  have hcatne : ¬(("cat" : String) = "") := by decide
  unfold get_top_k_wordsReal get_top_k_words get_top_k_completed
  simp only [hc, he', henc, initialBeam, initialBeamKeys, ne_eq,
    eq_self_iff_true, not_true_eq_false, if_false, List.append_nil]
  rw [searchLoop.eq_def]
  rw [dif_pos (by norm_num)]
  have hstep1 : searchStep floatOps ⟨2, 10⟩ tokC6run oracleC6run [7] ""
      ⟨[⟨0, 0, [], ""⟩], [], [], [], [], [[7]], 0⟩ =
      .ok ⟨[⟨(0 + -Real.log ((1/2 : ℚ) : ℝ)) * (5 + (1 : ℝ) ^ (0.6 : ℝ) / ((5 : ℝ) + 1) ^ (0.6 : ℝ)),
              0 + -Real.log ((1/2 : ℚ) : ℝ), [0], "cat"⟩],
            [], [], [([7], [(0, 1/2), (1, 1/100)])], [[7]], [[7, 0]], 1⟩ := by
    rw [searchStep]
    rw [show heappop beamLt [(⟨0, 0, [], ""⟩ : BeamItem ℝ)] = some (⟨0, 0, [], ""⟩, [])
      from heappop_singleton _ _]
    norm_num [List.lookup, oracleC6run, expandAndPrune, expandTokens, expandOne,
      completeCurrent, _create_complete_word, h0a, h1a, hs0, hl0, hstE, hstC, floatOps,
      heappush_nil, _get_top_tokens, enumerateFrom, pySorted, pyInsertStable,
      probDescLt, nsmallest]
  rw [hstep1]
  simp only []
  rw [searchLoop.eq_def]
  rw [dif_pos (by norm_num)]
  have hstep2 : searchStep floatOps ⟨2, 10⟩ tokC6run oracleC6run [7] ""
      ⟨[⟨(0 + -Real.log ((1/2 : ℚ) : ℝ)) * (5 + (1 : ℝ) ^ (0.6 : ℝ) / ((5 : ℝ) + 1) ^ (0.6 : ℝ)),
          0 + -Real.log ((1/2 : ℚ) : ℝ), [0], "cat"⟩],
        [], [], [([7], [(0, 1/2), (1, 1/100)])], [[7]], [[7, 0]], 1⟩ =
      .ok ⟨[],
           [⟨(0 + -Real.log ((1/2 : ℚ) : ℝ)) * (5 + (1 : ℝ) ^ (0.6 : ℝ) / ((5 : ℝ) + 1) ^ (0.6 : ℝ)),
              [0], "cat", Real.exp (-(0 + -Real.log ((1/2 : ℚ) : ℝ)))⟩],
           ["cat"],
           [([7, 0], [(0, 1/2), (1, 1/100)]), ([7], [(0, 1/2), (1, 1/100)])],
           [[7, 0], [7]], [], 2⟩ := by
    rw [searchStep]
    rw [show heappop beamLt [(⟨(0 + -Real.log ((1/2 : ℚ) : ℝ)) * (5 + (1 : ℝ) ^ (0.6 : ℝ) / ((5 : ℝ) + 1) ^ (0.6 : ℝ)),
          0 + -Real.log ((1/2 : ℚ) : ℝ), [0], "cat"⟩ : BeamItem ℝ)] =
        some (⟨(0 + -Real.log ((1/2 : ℚ) : ℝ)) * (5 + (1 : ℝ) ^ (0.6 : ℝ) / ((5 : ℝ) + 1) ^ (0.6 : ℝ)),
          0 + -Real.log ((1/2 : ℚ) : ℝ), [0], "cat"⟩, [])
      from heappop_singleton _ _]
    norm_num [List.lookup, oracleC6run, expandAndPrune, expandTokens, expandOne,
      completeCurrent, _create_complete_word, h0a, h1a, hs0, hl0, hstE, hstC, floatOps,
      heappush_nil, _get_top_tokens, enumerateFrom, pySorted, pyInsertStable,
      probDescLt, nsmallest, hcatne]
  rw [hstep2]
  simp only []
  rw [searchLoop.eq_def]
  rw [dif_neg (by norm_num)]
  simp only []
  norm_num [nsmallest, pySorted, pyInsertStable]
  exact Real.exp_log (by norm_num)

/-- In completion mode every word of the returned list extends the stripped
unfinished word: the search invariant `C6Inv` holds initially and is preserved
by every iteration. -/
theorem completion_mode_prefix {R : Type} [LinearOrder R] [Add R] [Zero R]
    (ops : ScoreOps R) (cfg : SearchConfig) (tok : Tokenizer) (oracle : OracleModel)
    (context_text : String) (k : Nat) (ws : List (String × R × Nat))
    (huw : (_extract_unfinished_word (_clean_context_text context_text)).2 ≠ "")
    (hok : get_top_k_words ops cfg tok oracle context_text k = .ok ws) :
    ∀ w ∈ ws,
      (pyStrip (_extract_unfinished_word (_clean_context_text context_text)).2).toList
        <+: w.1.toList := by
  intro w hw
  unfold get_top_k_words at hok
  cases hc : get_top_k_completed ops cfg tok oracle context_text k with
  | error e => rw [hc] at hok; simp at hok
  | ok tw =>
    rw [hc] at hok
    simp only [Except.ok.injEq] at hok
    rw [← hok] at hw
    obtain ⟨cw, hcw, rfl⟩ := List.mem_map.mp hw
    unfold get_top_k_completed at hc
    simp only [] at hc
    split at hc
    · exact absurd hc (by simp)
    · rename_i stF cnt hl
      simp only [Except.ok.injEq] at hc
      have hInv : C6Inv (_extract_unfinished_word (_clean_context_text context_text)).2 stF := by
        refine searchLoop_inv ops cfg tok oracle _ _ k _ (C6Inv _)
          (fun st st' hs hI => searchStep_C6 ops cfg tok oracle _ _ huw st st' hs hI)
          _ 0 _ stF cnt rfl hl ?_
        constructor
        · intro b hb
          unfold initialBeam at hb
          rw [if_pos huw] at hb
          simp only [List.mem_singleton] at hb
          subst hb
          exact ⟨[], by simp, by simp⟩
        · intro w2 hw2
          simp at hw2
      have hmem : cw ∈ stF.completed_words := by
        rw [← hc] at hcw
        exact nsmallest_mem _ _ _ _ hcw
      exact hInv.2 cw hmem

/-- The claim's phrase "whitespace-delimited token", transcribed from the spec
words (split at every Python-whitespace character, empty fields dropped) - a
second definition kept deliberately distinct from the code's space-only
`splitSpace`, for comparison. -/
def splitAnyWhitespace : List Char → List (List Char)
  | [] => [[]]
  | c :: cs =>
    if isPySpace c then [] :: splitAnyWhitespace cs
    else
      match splitAnyWhitespace cs with
      | [] => [[c]]
      | w :: ws => (c :: w) :: ws

/-- The whitespace-delimited tokens of a string, following the claim's words. -/
def whitespaceDelimitedTokens (s : String) : List String :=
  ((splitAnyWhitespace s.toList).filter fun l => l ≠ []).map String.mk

/-- Tokenizer for the C6 counterexample: the space-free input `"a\nhe"`
encodes to one token, and token `0` is an alphabetic word-start piece. -/
def tokC6c : Tokenizer where
  encode s := if s = "a\nhe" then [6] else []
  decode l := match l with
    | [0] => "x" | _ => ""
  id_to_piece i := match i with
    | 0 => "▁x" | _ => ""

/-- Oracle for the C6 counterexample. -/
def oracleC6c : OracleModel := fun _ => .ok [1]

set_option maxHeartbeats 1000000 in
theorem C6_counterexample :
    get_top_k_wordsReal ⟨2, 10⟩ tokC6c oracleC6c "a\nhe" 1 =
      .ok [("a\nhe", (1 : ℝ), 1)] ∧
    whitespaceDelimitedTokens "a\nhe" = ["a", "he"] ∧
    isPySpace ("a\nhe".toList.getLastD ' ') = false ∧
    "he".toList.isPrefixOf "a\nhe".toList = false := by
  refine ⟨?_, by decide, by decide, by decide⟩
  have hc : _clean_context_text "a\nhe" = "a\nhe" := by decide
  have he' : _extract_unfinished_word "a\nhe" = ("", "a\nhe") := by decide
  have henc : tokC6c.encode "a\nhe" = [6] := by decide
  have hencE : tokC6c.encode "" = [] := by decide
  have h0a : contains_letters_only tokC6c 0 = true := by decide
  have hs0 : starts_new_word tokC6c 0 = true := by decide
  have hstH : pyStrip ("a\nhe" : String) = "a\nhe" := by decide
  have hhene : ¬(("a\nhe" : String) = "") := by decide
  unfold get_top_k_wordsReal get_top_k_words get_top_k_completed
  simp only [hc, he', henc, hencE, initialBeam, initialBeamKeys, ne_eq,
    String.reduceEq, not_false_eq_true, if_true, List.nil_append]
  rw [searchLoop.eq_def]
  rw [dif_pos (by norm_num)]
  have hstep1 : searchStep floatOps ⟨2, 10⟩ tokC6c oracleC6c [] "a\nhe"
      ⟨[⟨0, 0, [6], "a\nhe"⟩], [], [], [], [], [[6]], 0⟩ =
      .ok ⟨[], [⟨0, [6], "a\nhe", Real.exp (-0)⟩], ["a\nhe"], [([6], [(0, 1)])],
           [[6]], [], 1⟩ := by
    rw [searchStep]
    rw [show heappop beamLt [(⟨0, 0, [6], "a\nhe"⟩ : BeamItem ℝ)] = some (⟨0, 0, [6], "a\nhe"⟩, [])
      from heappop_singleton _ _]
    norm_num [List.lookup, oracleC6c, expandAndPrune, expandTokens, expandOne,
      completeCurrent, _create_complete_word, h0a, hs0, hstH, hhene, floatOps,
      heappush_nil, _get_top_tokens, enumerateFrom, pySorted, pyInsertStable,
      probDescLt, nsmallest]
  rw [hstep1]
  simp only []
  rw [searchLoop.eq_def]
  rw [dif_neg (by norm_num)]
  simp only []
  norm_num [nsmallest, pySorted, pyInsertStable]


set_option maxHeartbeats 1000000 in
/-- Claim C6 (amended): the mode split is on the code's **space**-only
delimiter, not arbitrary whitespace.  When the cleaned input's unfinished-word
component strips to `"he"` (completion mode: no trailing space and last
space-delimited token `"he"`), every tuple returned by `get_top_k_words` has
text beginning with `"he"`; with a trailing space instead (next-word mode) no
such constraint holds: the concrete run on `"he "` returns `"cat"`. -/
theorem C6_mode_prefix :
    (∀ (cfg : SearchConfig) (tok : Tokenizer) (oracle : OracleModel)
        (context_text : String) (k : Nat) (ws : List (String × ℝ × Nat)),
        pyStrip (_extract_unfinished_word (_clean_context_text context_text)).2 = "he" →
        get_top_k_wordsReal cfg tok oracle context_text k = .ok ws →
        ∀ w ∈ ws, "he".toList.isPrefixOf w.1.toList = true) ∧
    (get_top_k_wordsReal ⟨2, 10⟩ tokC6run oracleC6run "he " 1 =
        .ok [("cat", (1/2 : ℝ), 1)] ∧
      "he".toList.isPrefixOf "cat".toList = false) := by
  refine ⟨?_, nextword_run_cat, by decide⟩
  intro cfg tok oracle context_text k ws hstrip hok w hw
  have huw : (_extract_unfinished_word (_clean_context_text context_text)).2 ≠ "" := by
    intro h
    rw [h] at hstrip
    exact absurd hstrip (by decide)
  unfold get_top_k_wordsReal at hok
  have hpre := completion_mode_prefix floatOps cfg tok oracle context_text k ws huw hok w hw
  rw [hstrip] at hpre
  exact List.isPrefixOf_iff_prefix.mpr hpre

/-- Tokenizer for the C6 witness run: the unfinished word `"he"` encodes to one
token, and token `0` is an alphabetic word-start piece that completes it. -/
def tokC6w : Tokenizer where
  encode s := if s = "he" then [5] else []
  decode l := match l with
    | [0] => "x" | _ => ""
  id_to_piece i := match i with
    | 0 => "▁x" | _ => ""

/-- Oracle for the C6 witness run. -/
def oracleC6w : OracleModel := fun _ => .ok [1]

set_option maxHeartbeats 1000000 in
/-- Witness for the universal half of C6_mode_prefix: a completion-mode run on
context `"he"` returns `[("he", 1, 1)]`, and the claim theorem instantiated on
that run confirms the prefix property. -/
theorem C6_witness :
    get_top_k_wordsReal ⟨2, 10⟩ tokC6w oracleC6w "he" 1 = .ok [("he", (1 : ℝ), 1)] ∧
    ∀ w ∈ [(("he" : String), (1 : ℝ), 1)], "he".toList.isPrefixOf w.1.toList = true := by
  have hrun : get_top_k_wordsReal ⟨2, 10⟩ tokC6w oracleC6w "he" 1 =
      .ok [("he", (1 : ℝ), 1)] := by
    have hc : _clean_context_text "he" = "he" := by decide
    have he' : _extract_unfinished_word "he" = ("", "he") := by decide
    have henc : tokC6w.encode "he" = [5] := by decide
    have hencE : tokC6w.encode "" = [] := by decide
    have h0a : contains_letters_only tokC6w 0 = true := by decide
    have hs0 : starts_new_word tokC6w 0 = true := by decide
    have hstH : pyStrip ("he" : String) = "he" := by decide
    have hhene : ¬(("he" : String) = "") := by decide
    unfold get_top_k_wordsReal get_top_k_words get_top_k_completed
    simp only [hc, he', henc, hencE, initialBeam, initialBeamKeys, ne_eq,
      String.reduceEq, not_false_eq_true, if_true, List.nil_append]
    rw [searchLoop.eq_def]
    rw [dif_pos (by norm_num)]
    have hstep1 : searchStep floatOps ⟨2, 10⟩ tokC6w oracleC6w [] "he"
        ⟨[⟨0, 0, [5], "he"⟩], [], [], [], [], [[5]], 0⟩ =
        .ok ⟨[], [⟨0, [5], "he", Real.exp (-0)⟩], ["he"], [([5], [(0, 1)])],
             [[5]], [], 1⟩ := by
      rw [searchStep]
      rw [show heappop beamLt [(⟨0, 0, [5], "he"⟩ : BeamItem ℝ)] = some (⟨0, 0, [5], "he"⟩, [])
        from heappop_singleton _ _]
      norm_num [List.lookup, oracleC6w, expandAndPrune, expandTokens, expandOne,
        completeCurrent, _create_complete_word, h0a, hs0, hstH, hhene, floatOps,
        heappush_nil, _get_top_tokens, enumerateFrom, pySorted, pyInsertStable,
        probDescLt, nsmallest]
    rw [hstep1]
    simp only []
    rw [searchLoop.eq_def]
    rw [dif_neg (by norm_num)]
    simp only []
    norm_num [nsmallest, pySorted, pyInsertStable]
  exact ⟨hrun, C6_mode_prefix.1 ⟨2, 10⟩ tokC6w oracleC6w "he" 1 _ (by decide) hrun⟩

/-! ## Claim C10: promotion of the unfinished word by a word-start token -/

/-- The completed word `_create_complete_word` builds from a candidate whose
stripped text is nonempty. -/
def promotedWord {R : Type} (ops : ScoreOps R) (cur : BeamItem R) : CompletedWord R :=
  ⟨cur.neg_log_prob_normalised, cur.tokens, pyStrip cur.text, ops.negExp cur.neg_log_prob⟩

theorem create_complete_word_some {R : Type} (ops : ScoreOps R) (cur : BeamItem R)
    (hstrip : ¬(pyStrip cur.text = "")) :
    _create_complete_word ops cur = some (promotedWord ops cur) := by
  unfold _create_complete_word promotedWord
  simp only []
  rw [if_pos hstrip]

theorem completeCurrent_promote {R : Type} [LinearOrder R] (ops : ScoreOps R)
    (cur : BeamItem R) (st : SearchState R) (hstrip : ¬(pyStrip cur.text = "")) :
    (pyStrip cur.text ∈ st.completed_words_texts ∧ completeCurrent ops cur st = st) ∨
    (pyStrip cur.text ∉ st.completed_words_texts ∧
      (completeCurrent ops cur st).completed_words =
        heappush cwLt st.completed_words (promotedWord ops cur) ∧
      (completeCurrent ops cur st).completed_words_texts =
        st.completed_words_texts ++ [pyStrip cur.text]) := by
  unfold completeCurrent
  rw [create_complete_word_some ops cur hstrip]
  simp only []
  rw [show (promotedWord ops cur).text = pyStrip cur.text from rfl]
  by_cases hmem : pyStrip cur.text ∈ st.completed_words_texts
  · left
    refine ⟨hmem, ?_⟩
    rw [if_neg (fun hcon => hcon hmem)]
  · right
    rw [if_pos hmem]
    exact ⟨hmem, rfl, rfl⟩

theorem expandOne_completed_cases {R : Type} [LinearOrder R] [Add R]
    (ops : ScoreOps R) (tok : Tokenizer) (ctx : List Nat) (uw : String)
    (cur : BeamItem R) (t : Nat × ℚ) (st st' : SearchState R)
    (huw : uw ≠ "") (hok : expandOne ops tok ctx uw cur t st = .ok st') :
    (¬(contains_letters_only tok t.1 = true ∧ starts_new_word tok t.1 = true) ∧
      st'.completed_words = st.completed_words ∧
      st'.completed_words_texts = st.completed_words_texts) ∨
    st' = completeCurrent ops cur st := by
  unfold expandOne at hok
  split at hok
  · rename_i halpha
    left
    simp only [Except.ok.injEq] at hok
    rw [← hok]
    exact ⟨fun hb => absurd hb.1 halpha, rfl, rfl⟩
  · split at hok
    · right
      simp only [Except.ok.injEq] at hok
      rw [← hok]
    · rename_i hws
      left
      unfold _create_new_beam_item at hok
      cases hnl : ops.negLog t.2 with
      | none => rw [hnl] at hok; simp at hok
      | some nl =>
        rw [hnl] at hok
        simp only [] at hok
        refine ⟨fun hb => absurd hb.2 hws, ?_⟩
        split at hok <;> (simp only [Except.ok.injEq] at hok; rw [← hok]; exact ⟨rfl, rfl⟩)

/-- While expanding one popped candidate `cur` whose stripped text is nonempty
(completion mode), the completed pool either stays as it was or receives
exactly the promoted word; if some selected token is alphabetic and
word-starting, the promotion is guaranteed. -/
theorem expandTokens_promote {R : Type} [LinearOrder R] [Add R] (ops : ScoreOps R)
    (tok : Tokenizer) (ctx : List Nat) (uw : String) (cur : BeamItem R)
    (huw : uw ≠ "") (hstrip : ¬(pyStrip cur.text = "")) :
    ∀ (tnt : List (Nat × ℚ)) (st : SearchState R),
      ((st.completed_words = [promotedWord ops cur] ∧
          st.completed_words_texts = [pyStrip cur.text]) ∨
        (st.completed_words = [] ∧ st.completed_words_texts = [])) →
      ∀ st', expandTokens ops tok ctx uw cur tnt st = .ok st' →
      ((st'.completed_words = [promotedWord ops cur] ∧
          st'.completed_words_texts = [pyStrip cur.text]) ∨
        (st'.completed_words = [] ∧ st'.completed_words_texts = [])) ∧
      ((st.completed_words = [promotedWord ops cur] ∧
          st.completed_words_texts = [pyStrip cur.text]) →
        (st'.completed_words = [promotedWord ops cur] ∧
          st'.completed_words_texts = [pyStrip cur.text])) ∧
      ((∃ t ∈ tnt, contains_letters_only tok t.1 = true ∧ starts_new_word tok t.1 = true) →
        st'.completed_words = [promotedWord ops cur] ∧
        st'.completed_words_texts = [pyStrip cur.text]) := by
  intro tnt
  induction tnt with
  | nil =>
    intro st hInv st' hok
    unfold expandTokens at hok
    simp only [Except.ok.injEq] at hok
    rw [← hok]
    refine ⟨hInv, fun h => h, ?_⟩
    rintro ⟨t, ht, -⟩
    exact absurd ht (List.not_mem_nil t)
  | cons t ts ih =>
    intro st hInv st' hok
    unfold expandTokens at hok
    cases h1 : expandOne ops tok ctx uw cur t st with
    | error e => rw [h1] at hok; simp at hok
    | ok st1 =>
      rw [h1] at hok
      simp only [] at hok
      have hcases := expandOne_completed_cases ops tok ctx uw cur t st st1 huw h1
      have hInv1 : (st1.completed_words = [promotedWord ops cur] ∧
          st1.completed_words_texts = [pyStrip cur.text]) ∨
          (st1.completed_words = [] ∧ st1.completed_words_texts = []) := by
        rcases hcases with ⟨-, hc1, hc2⟩ | hcc
        · rw [hc1, hc2]
          exact hInv
        · rw [hcc]
          rcases completeCurrent_promote ops cur st hstrip with ⟨hmem, heq⟩ | ⟨hmem, hc1, hc2⟩
          · rw [heq]
            exact hInv
          · rcases hInv with ⟨hl1, hl2⟩ | ⟨hr1, hr2⟩
            · exact absurd (hl2 ▸ hmem) (by simp)
            · left
              rw [hc1, hc2, hr1, hr2, heappush_nil]
              exact ⟨rfl, rfl⟩
      have hstep_pres : (st.completed_words = [promotedWord ops cur] ∧
          st.completed_words_texts = [pyStrip cur.text]) →
          (st1.completed_words = [promotedWord ops cur] ∧
            st1.completed_words_texts = [pyStrip cur.text]) := by
        intro hL
        rcases hcases with ⟨-, hc1, hc2⟩ | hcc
        · rw [hc1, hc2]
          exact hL
        · rw [hcc]
          rcases completeCurrent_promote ops cur st hstrip with ⟨hmem, heq⟩ | ⟨hmem, hc1, hc2⟩
          · rw [heq]
            exact hL
          · exact absurd (hL.2 ▸ hmem) (by simp)
      have hhit : (contains_letters_only tok t.1 = true ∧ starts_new_word tok t.1 = true) →
          (st1.completed_words = [promotedWord ops cur] ∧
            st1.completed_words_texts = [pyStrip cur.text]) := by
        intro hq
        rcases hcases with ⟨hnq, -, -⟩ | hcc
        · exact absurd hq hnq
        · rw [hcc]
          rcases completeCurrent_promote ops cur st hstrip with ⟨hmem, heq⟩ | ⟨hmem, hc1, hc2⟩
          · rw [heq]
            rcases hInv with h | ⟨hr1, hr2⟩
            · exact h
            · exact absurd (hr2 ▸ hmem) (by simp)
          · rcases hInv with ⟨hl1, hl2⟩ | ⟨hr1, hr2⟩
            · exact absurd (hl2 ▸ hmem) (by simp)
            · rw [hc1, hc2, hr1, hr2, heappush_nil]
              exact ⟨rfl, rfl⟩
      obtain ⟨hI2, hMono2, hQual2⟩ := ih st1 hInv1 st' hok
      refine ⟨hI2, fun hL => hMono2 (hstep_pres hL), ?_⟩
      rintro ⟨t2, ht2, hq2⟩
      rcases List.mem_cons.mp ht2 with rfl | hmem2
      · exact hMono2 (hhit hq2)
      · exact hQual2 ⟨t2, hmem2, hq2⟩

/-- Tokenizer for the C10 counterexample: token `0` is a word-start piece that
is **not** alphabetic (`▁,`). -/
def tokC10run : Tokenizer where
  encode s := if s = "a" then [3] else []
  decode l := match l with
    | [0] => "," | _ => ""
  id_to_piece i := match i with
    | 0 => "▁," | _ => ""

/-- Oracle for the C10 counterexample. -/
def oracleC10run : OracleModel := fun _ => .ok [1]

set_option maxHeartbeats 1000000 in
/-- Claim C10 (counterexample): in completion mode on `"a"`, the word-start
token `▁,` is the seed's sole top next token, yet the unfinished word is
**not** promoted - the call returns no words at all, because
`contains_letters_only` is checked before the word-start test. -/
theorem C10_counterexample :
    (get_top_k_wordsReal ⟨1, 10⟩ tokC10run oracleC10run "a" 1 = .ok [] ∧
     ((0 : Nat), (1 : ℚ)) ∈ _get_top_tokens [1] 1 ∧
     starts_new_word tokC10run 0 = true) := by
  refine ⟨?_, by decide, by decide⟩
  have hc : _clean_context_text "a" = "a" := by decide
  have he' : _extract_unfinished_word "a" = ("", "a") := by decide
  have henc : tokC10run.encode "a" = [3] := by decide
  have hencE : tokC10run.encode "" = [] := by decide
  have h0a : contains_letters_only tokC10run 0 = false := by decide
  unfold get_top_k_wordsReal get_top_k_words get_top_k_completed
  simp only [hc, he', henc, hencE, initialBeam, initialBeamKeys, ne_eq,
    String.reduceEq, not_false_eq_true, if_true, List.nil_append]
  rw [searchLoop.eq_def]
  rw [dif_pos (by norm_num)]
  have hstep1 : searchStep floatOps ⟨1, 10⟩ tokC10run oracleC10run [] "a"
      ⟨[⟨0, 0, [3], "a"⟩], [], [], [], [], [[3]], 0⟩ =
      .ok ⟨[], [], [], [([3], [(0, 1)])], [[3]], [], 1⟩ := by
    rw [searchStep]
    rw [show heappop beamLt [(⟨0, 0, [3], "a"⟩ : BeamItem ℝ)] = some (⟨0, 0, [3], "a"⟩, [])
      from heappop_singleton _ _]
    norm_num [List.lookup, oracleC10run, expandAndPrune, expandTokens, expandOne,
      h0a, floatOps, _get_top_tokens, enumerateFrom, pySorted, pyInsertStable,
      probDescLt, nsmallest]
  rw [hstep1]
  simp only []
  rw [searchLoop.eq_def]
  rw [dif_neg (by norm_num)]
  simp only []
  norm_num [nsmallest, pySorted]

set_option maxHeartbeats 1000000 in
/-- Claim C10 (amended): the completion-mode seed carries cumulative negative
log-probability 0 and normalized score 0; when it survives the length prune
and some selected top next token is alphabetic **and** word-starting (and the
stripped unfinished word is nonempty), the first search iteration promotes
the unfinished word into the completed pool as its sole entry, with
probability exactly `exp(-0) = 1` and normalized score 0. -/
theorem C10_seed_promotion :
    (∀ (tok : Tokenizer) (uw : String), uw ≠ "" →
      initialBeam (R := ℝ) tok uw = [⟨0, 0, tok.encode uw, uw⟩]) ∧
    (∀ (cfg : SearchConfig) (tok : Tokenizer) (oracle : OracleModel) (ctx : List Nat)
       (uw : String) (probs : List ℚ) (t : Nat × ℚ) (st' : SearchState ℝ),
       uw ≠ "" → ¬(pyStrip uw = "") →
       (tok.encode uw).length < cfg.max_word_length →
       oracle (ctx ++ tok.encode uw) = .ok probs →
       t ∈ _get_top_tokens probs cfg.beam_width →
       contains_letters_only tok t.1 = true →
       starts_new_word tok t.1 = true →
       searchStep floatOps cfg tok oracle ctx uw
         ⟨initialBeam tok uw, [], [], [], [], initialBeamKeys tok ctx uw, 0⟩ = .ok st' →
       st'.completed_words = [⟨0, tok.encode uw, pyStrip uw, 1⟩]) := by
  constructor
  · intro tok uw huw
    unfold initialBeam
    rw [if_pos huw]
  · intro cfg tok oracle ctx uw probs t st' huw hstrip hlen horacle hmem halpha hws hok
    have hseed : initialBeam (R := ℝ) tok uw = [⟨0, 0, tok.encode uw, uw⟩] := by
      unfold initialBeam
      rw [if_pos huw]
    rw [hseed] at hok
    unfold searchStep at hok
    simp only [] at hok
    rw [show heappop beamLt [(⟨0, 0, tok.encode uw, uw⟩ : BeamItem ℝ)] =
      some (⟨0, 0, tok.encode uw, uw⟩, []) from heappop_singleton _ _] at hok
    simp only [] at hok
    rw [if_neg (Nat.not_le.mpr hlen)] at hok
    rw [if_neg (List.not_mem_nil _)] at hok
    simp only [List.lookup] at hok
    rw [horacle] at hok
    simp only [] at hok
    unfold expandAndPrune at hok
    cases hexp : expandTokens floatOps tok ctx uw ⟨0, 0, tok.encode uw, uw⟩
        (_get_top_tokens probs cfg.beam_width)
        ⟨[], [], [], [(ctx ++ tok.encode uw, _get_top_tokens probs cfg.beam_width)],
          [ctx ++ tok.encode uw], (initialBeamKeys tok ctx uw).erase (ctx ++ tok.encode uw), 1⟩ with
    | error e => rw [hexp] at hok; simp at hok
    | ok st3 =>
      rw [hexp] at hok
      simp only [Except.ok.injEq] at hok
      have hprom := (expandTokens_promote floatOps tok ctx uw ⟨0, 0, tok.encode uw, uw⟩
        huw hstrip (_get_top_tokens probs cfg.beam_width) _
        (Or.inr ⟨rfl, rfl⟩) st3 hexp).2.2 ⟨t, hmem, halpha, hws⟩
      rw [← hok]
      show st3.completed_words = _
      rw [hprom.1]
      simp [promotedWord, floatOps]

/-- Tokenizer for the C10 witness run: token `0` is an alphabetic word-start
piece, so the seed for `"a"` is promoted. -/
def tokC10w : Tokenizer where
  encode s := if s = "a" then [3] else []
  decode l := match l with
    | [0] => "x" | _ => ""
  id_to_piece i := match i with
    | 0 => "▁x" | _ => ""

/-- Oracle for the C10 witness run. -/
def oracleC10w : OracleModel := fun _ => .ok [1]

set_option maxHeartbeats 1000000 in
/-- Witness for C10_seed_promotion: a concrete first iteration on the seed of
`"a"` promotes the unfinished word, and the claim theorem instantiated on that
step yields the completed pool `[⟨0, [3], "a", 1⟩]`. -/
theorem C10_witness :
    searchStep floatOps ⟨1, 10⟩ tokC10w oracleC10w [] "a"
      ⟨initialBeam tokC10w "a", [], [], [], [], initialBeamKeys tokC10w [] "a", 0⟩ =
      .ok ⟨[], [⟨0, [3], "a", Real.exp (-0)⟩], ["a"], [([3], [(0, 1)])], [[3]], [], 1⟩ ∧
    (⟨[], [⟨0, [3], "a", Real.exp (-0)⟩], ["a"], [([3], [(0, 1)])], [[3]], [], 1⟩ :
        SearchState ℝ).completed_words = [⟨0, tokC10w.encode "a", pyStrip "a", 1⟩] := by
  have h1 : initialBeam (R := ℝ) tokC10w "a" = [⟨0, 0, [3], "a"⟩] := by
    simp [initialBeam, tokC10w]
  have h2 : initialBeamKeys tokC10w [] "a" = [[3]] := by
    simp [initialBeamKeys, tokC10w]
  have h0a : contains_letters_only tokC10w 0 = true := by decide
  have hs0 : starts_new_word tokC10w 0 = true := by decide
  have hstA : pyStrip ("a" : String) = "a" := by decide
  have hane : ¬(("a" : String) = "") := by decide
  have hrun : searchStep floatOps ⟨1, 10⟩ tokC10w oracleC10w [] "a"
      ⟨initialBeam tokC10w "a", [], [], [], [], initialBeamKeys tokC10w [] "a", 0⟩ =
      .ok ⟨[], [⟨0, [3], "a", Real.exp (-0)⟩], ["a"], [([3], [(0, 1)])], [[3]], [], 1⟩ := by
    rw [h1, h2]
    rw [searchStep]
    rw [show heappop beamLt [(⟨0, 0, [3], "a"⟩ : BeamItem ℝ)] = some (⟨0, 0, [3], "a"⟩, [])
      from heappop_singleton _ _]
    norm_num [List.lookup, oracleC10w, expandAndPrune, expandTokens, expandOne,
      completeCurrent, _create_complete_word, h0a, hs0, hstA, hane, floatOps,
      heappush_nil, _get_top_tokens, enumerateFrom, pySorted, pyInsertStable,
      probDescLt, nsmallest]
  refine ⟨hrun, ?_⟩
  exact C10_seed_promotion.2 ⟨1, 10⟩ tokC10w oracleC10w [] "a" [1] (0, 1) _
    (by decide) (by decide) (by decide) rfl (by decide) (by decide) (by decide) hrun

/-! ## Claim C2: the returned list is sorted by normalized score, not by
probability -/

/-- Tokenizer for the C2 counterexample: `▁b` and `▁a` are alphabetic
word-start pieces, `x` an alphabetic continuation. -/
def tokC2run : Tokenizer where
  encode s := if s = "a " then [5] else []
  decode l := match l with
    | [0] => "b" | [1] => "a" | [2] => "x" | _ => "?"
  id_to_piece i := match i with
    | 0 => "▁b" | 1 => "▁a" | 2 => "x" | _ => "?"

/-- Oracle for the C2 counterexample. -/
def oracleC2run : OracleModel := fun ts =>
  if ts = [5] then .ok [5/9, 3/4, 1/1000, 1/100, 1/100]
  else if ts = [5, 1] then .ok [1/1000, 1/1000, 3/4, 1/100, 1/50]
  else .ok [1/1000, 1/2, 1/1000, 1/100, 1/50]

theorem heappush_pair_of_not_lt (lt : α → α → Bool) (y x : α) (h : lt x y = false) :
    heappush lt [y] x = [y, x] := by
  unfold heappush
  rw [siftdownRec.eq_def]
  simp only [List.length_cons, List.length_nil]
  norm_num [h]


theorem log_mono_59_34 : Real.log ((5:ℝ)/9) ≤ Real.log ((3:ℝ)/4) :=
  Real.log_le_log (by norm_num) (by norm_num)

theorem hF1test : beamLt
    (⟨-(Real.log ((5:ℝ)/9) * (5 + ((6:ℝ) ^ ((3:ℝ)/5))⁻¹)), -Real.log ((5:ℝ)/9), [0], "b"⟩ : BeamItem ℝ)
    (⟨-(Real.log ((3:ℝ)/4) * (5 + ((6:ℝ) ^ ((3:ℝ)/5))⁻¹)), -Real.log ((3:ℝ)/4), [1], "a"⟩ : BeamItem ℝ) = false := by
  simp only [beamLt, decide_eq_false_iff_not, not_lt]
  have hc : (0:ℝ) < 5 + ((6:ℝ) ^ ((3:ℝ)/5))⁻¹ := by positivity
  nlinarith [log_mono_59_34, hc]

set_option maxHeartbeats 1000000 in
theorem C2_hstep1 :
    searchStep floatOps ⟨3, 10⟩ tokC2run oracleC2run [5] ""
      ⟨[⟨0, 0, [], ""⟩], [], [], [], [], [[5]], 0⟩ =
    .ok ⟨[⟨-(Real.log ((3:ℝ)/4) * (5 + ((6:ℝ) ^ ((3:ℝ)/5))⁻¹)), -Real.log ((3:ℝ)/4), [1], "a"⟩,
          ⟨-(Real.log ((5:ℝ)/9) * (5 + ((6:ℝ) ^ ((3:ℝ)/5))⁻¹)), -Real.log ((5:ℝ)/9), [0], "b"⟩],
         [], [], [([5], [(1, 3/4), (0, 5/9), (3, 1/100)])], [[5]], [[5, 0], [5, 1]], 1⟩ := by
  have h0a : contains_letters_only tokC2run 0 = true := by decide
  have h1a : contains_letters_only tokC2run 1 = true := by decide
  have h3a : contains_letters_only tokC2run 3 = false := by decide
  have hs0 : starts_new_word tokC2run 0 = true := by decide
  have hs1 : starts_new_word tokC2run 1 = true := by decide
  have hl0 : pyLStrip (tokC2run.decode [0]) = "b" := by decide
  have hl1 : pyLStrip (tokC2run.decode [1]) = "a" := by decide
  have hstE : pyStrip ("" : String) = "" := by decide
  have hpush1 : heappush beamLt
      [(⟨-(Real.log ((3:ℝ)/4) * (5 + ((6:ℝ) ^ ((3:ℝ)/5))⁻¹)), -Real.log ((3:ℝ)/4), [1], "a"⟩ : BeamItem ℝ)]
      ⟨-(Real.log ((5:ℝ)/9) * (5 + ((6:ℝ) ^ ((3:ℝ)/5))⁻¹)), -Real.log ((5:ℝ)/9), [0], "b"⟩ =
      [⟨-(Real.log ((3:ℝ)/4) * (5 + ((6:ℝ) ^ ((3:ℝ)/5))⁻¹)), -Real.log ((3:ℝ)/4), [1], "a"⟩,
       ⟨-(Real.log ((5:ℝ)/9) * (5 + ((6:ℝ) ^ ((3:ℝ)/5))⁻¹)), -Real.log ((5:ℝ)/9), [0], "b"⟩] :=
    heappush_pair_of_not_lt _ _ _ hF1test
  rw [searchStep]
  rw [show heappop beamLt [(⟨0, 0, [], ""⟩ : BeamItem ℝ)] = some (⟨0, 0, [], ""⟩, [])
    from heappop_singleton _ _]
  norm_num [List.lookup, oracleC2run, expandAndPrune, expandTokens, expandOne,
    h0a, h1a, h3a, hs0, hs1, hl0, hl1, hstE, floatOps,
    heappush_nil, hpush1, hF1test, _get_top_tokens, enumerateFrom, pySorted, pyInsertStable,
    probDescLt, nsmallest]


theorem rpow_six_lower : (500/171 : ℝ) < (6 : ℝ) ^ ((3 : ℝ)/5) := by
  have hpos : (0:ℝ) ≤ (6:ℝ) ^ ((3:ℝ)/5) := Real.rpow_nonneg (by norm_num) _
  have hval : ((6:ℝ) ^ ((3:ℝ)/5)) ^ (5:ℕ) = 216 := by
    rw [← Real.rpow_natCast ((6:ℝ) ^ ((3:ℝ)/5)) 5, ← Real.rpow_mul (by norm_num : (0:ℝ) ≤ 6)]
    rw [show ((3:ℝ)/5 * (5:ℕ)) = ((3:ℕ):ℝ) by push_cast; ring]
    rw [Real.rpow_natCast]
    norm_num
  have h5 : ((500/171:ℝ)) ^ (5:ℕ) < ((6:ℝ) ^ ((3:ℝ)/5)) ^ (5:ℕ) := by
    rw [hval]
    norm_num
  exact lt_of_pow_lt_pow_left₀ 5 hpos h5

theorem rpow_three_upper : (3 : ℝ) ^ ((3 : ℝ)/5) < 250/129 := by
  have hpos : (0:ℝ) ≤ (250/129:ℝ) := by norm_num
  have hval : ((3:ℝ) ^ ((3:ℝ)/5)) ^ (5:ℕ) = 27 := by
    rw [← Real.rpow_natCast ((3:ℝ) ^ ((3:ℝ)/5)) 5, ← Real.rpow_mul (by norm_num : (0:ℝ) ≤ 3)]
    rw [show ((3:ℝ)/5 * (5:ℕ)) = ((3:ℕ):ℝ) by push_cast; ring]
    rw [Real.rpow_natCast]
    norm_num
  have h5 : ((3:ℝ) ^ ((3:ℝ)/5)) ^ (5:ℕ) < ((250/129:ℝ)) ^ (5:ℕ) := by
    rw [hval]
    norm_num
  exact lt_of_pow_lt_pow_left₀ 5 hpos h5

theorem log_nine_fifths_upper : Real.log (9/5) < 147/250 := by
  rw [Real.log_lt_iff_lt_exp (by norm_num)]
  refine lt_of_lt_of_le ?_ (Real.sum_le_exp_of_nonneg (by norm_num : (0:ℝ) ≤ 147/250) 6)
  norm_num [Finset.sum_range_succ, Nat.factorial]

theorem log_four_thirds_lower : (23/80 : ℝ) < Real.log (4/3) := by
  rw [Real.lt_log_iff_exp_lt (by norm_num)]
  have habs : |(23/80:ℝ)| = 23/80 := abs_of_nonneg (by norm_num)
  have h := Real.exp_bound (x := (23/80:ℝ)) (by rw [habs]; norm_num) (by norm_num : 0 < 5)
  rw [habs] at h
  have h2 := (abs_le.mp h).2
  have h3 : Real.exp (23/80) ≤
      (∑ i in Finset.range 5, (23/80:ℝ)^i / (Nat.factorial i)) + (23/80:ℝ)^5 * (6/(120*5)) := by
    have : ((5:ℕ).succ : ℝ) / ((Nat.factorial 5) * 5) = 6/(120*5) := by norm_num [Nat.factorial]
    rw [← this]
    linarith [h2]
  refine lt_of_le_of_lt h3 ?_
  norm_num [Finset.sum_range_succ, Nat.factorial]





theorem two_div_six_rpow : (2:ℝ)^((3:ℝ)/5) / (6:ℝ)^((3:ℝ)/5) = ((3:ℝ)^((3:ℝ)/5))⁻¹ := by
  rw [← Real.div_rpow (by norm_num : (0:ℝ) ≤ 2) (by norm_num : (0:ℝ) ≤ 6)]
  rw [show ((2:ℝ)/6) = (3:ℝ)⁻¹ from by norm_num]
  rw [Real.inv_rpow (by norm_num : (0:ℝ) ≤ 3)]

theorem c2_key_ineq :
    Real.log (9/5) * (5 + ((6:ℝ)^((3:ℝ)/5))⁻¹) <
      2 * Real.log (4/3) * (5 + (2:ℝ)^((3:ℝ)/5) / (6:ℝ)^((3:ℝ)/5)) := by
  have h6 := rpow_six_lower
  have h6pos : (0:ℝ) < (6:ℝ)^((3:ℝ)/5) := Real.rpow_pos_of_pos (by norm_num) _
  have h3' := rpow_three_upper
  have h3pos : (0:ℝ) < (3:ℝ)^((3:ℝ)/5) := Real.rpow_pos_of_pos (by norm_num) _
  have hinv6 : ((6:ℝ)^((3:ℝ)/5))⁻¹ < 171/500 := by
    simpa using one_div_lt_one_div_of_lt (by norm_num : (0:ℝ) < 500/171) h6
  have hinv3 : (129/250:ℝ) < ((3:ℝ)^((3:ℝ)/5))⁻¹ := by
    simpa using one_div_lt_one_div_of_lt h3pos h3'
  have hlp1 : (0:ℝ) < Real.log (9/5) := Real.log_pos (by norm_num)
  have hc1 : (5:ℝ) + ((6:ℝ)^((3:ℝ)/5))⁻¹ < 2671/500 := by linarith
  have hc1pos : (0:ℝ) < 5 + ((6:ℝ)^((3:ℝ)/5))⁻¹ := by positivity
  have hL : Real.log (9/5) * (5 + ((6:ℝ)^((3:ℝ)/5))⁻¹) < (147/250) * (2671/500) :=
    mul_lt_mul'' log_nine_fifths_upper hc1 (le_of_lt hlp1) (le_of_lt hc1pos)
  rw [two_div_six_rpow]
  have hc2 : (1379/250:ℝ) < 5 + ((3:ℝ)^((3:ℝ)/5))⁻¹ := by linarith
  have hR : (23/80) * (1379/250:ℝ) < Real.log (4/3) * (5 + ((3:ℝ)^((3:ℝ)/5))⁻¹) :=
    mul_lt_mul'' log_four_thirds_lower hc2 (by norm_num) (by norm_num)
  linarith [hL, hR]

theorem log_inv_59 : -Real.log ((5:ℝ)/9) = Real.log ((9:ℝ)/5) := by
  rw [show ((9:ℝ)/5) = ((5:ℝ)/9)⁻¹ from by norm_num, Real.log_inv]

theorem log_inv_34 : -Real.log ((3:ℝ)/4) = Real.log ((4:ℝ)/3) := by
  rw [show ((4:ℝ)/3) = ((3:ℝ)/4)⁻¹ from by norm_num, Real.log_inv]

theorem hF2test : beamLt
    (⟨(-Real.log ((3:ℝ)/4) + -Real.log ((3:ℝ)/4)) * (5 + (2:ℝ) ^ ((3:ℝ)/5) / (6:ℝ) ^ ((3:ℝ)/5)),
       -Real.log ((3:ℝ)/4) + -Real.log ((3:ℝ)/4), [1, 2], "ax"⟩ : BeamItem ℝ)
    (⟨-(Real.log ((5:ℝ)/9) * (5 + ((6:ℝ) ^ ((3:ℝ)/5))⁻¹)), -Real.log ((5:ℝ)/9), [0], "b"⟩ : BeamItem ℝ)
    = false := by
  simp only [beamLt, decide_eq_false_iff_not, not_lt]
  have h1 : -(Real.log ((5:ℝ)/9) * (5 + ((6:ℝ) ^ ((3:ℝ)/5))⁻¹)) =
      Real.log ((9:ℝ)/5) * (5 + ((6:ℝ) ^ ((3:ℝ)/5))⁻¹) := by
    rw [← log_inv_59]
    ring
  have h2 : (-Real.log ((3:ℝ)/4) + -Real.log ((3:ℝ)/4)) *
      (5 + (2:ℝ) ^ ((3:ℝ)/5) / (6:ℝ) ^ ((3:ℝ)/5)) =
      2 * Real.log ((4:ℝ)/3) * (5 + (2:ℝ) ^ ((3:ℝ)/5) / (6:ℝ) ^ ((3:ℝ)/5)) := by
    rw [← log_inv_34]
    ring
  rw [h1, h2]
  exact le_of_lt c2_key_ineq

set_option maxHeartbeats 1000000 in
theorem C2_hstep2 :
    searchStep floatOps ⟨3, 10⟩ tokC2run oracleC2run [5] ""
      ⟨[⟨-(Real.log ((3:ℝ)/4) * (5 + ((6:ℝ) ^ ((3:ℝ)/5))⁻¹)), -Real.log ((3:ℝ)/4), [1], "a"⟩,
        ⟨-(Real.log ((5:ℝ)/9) * (5 + ((6:ℝ) ^ ((3:ℝ)/5))⁻¹)), -Real.log ((5:ℝ)/9), [0], "b"⟩],
       [], [], [([5], [(1, 3/4), (0, 5/9), (3, 1/100)])], [[5]], [[5, 0], [5, 1]], 1⟩ =
    .ok ⟨[⟨-(Real.log ((5:ℝ)/9) * (5 + ((6:ℝ) ^ ((3:ℝ)/5))⁻¹)), -Real.log ((5:ℝ)/9), [0], "b"⟩,
          ⟨(-Real.log ((3:ℝ)/4) + -Real.log ((3:ℝ)/4)) * (5 + (2:ℝ) ^ ((3:ℝ)/5) / (6:ℝ) ^ ((3:ℝ)/5)),
            -Real.log ((3:ℝ)/4) + -Real.log ((3:ℝ)/4), [1, 2], "ax"⟩],
         [], [], [([5, 1], [(2, 3/4), (4, 1/50), (3, 1/100)]),
                  ([5], [(1, 3/4), (0, 5/9), (3, 1/100)])],
         [[5, 1], [5]], [[5, 1, 2], [5, 0]], 2⟩ := by
  have h2a : contains_letters_only tokC2run 2 = true := by decide
  have h4a : contains_letters_only tokC2run 4 = false := by decide
  have h3a : contains_letters_only tokC2run 3 = false := by decide
  have hs2 : starts_new_word tokC2run 2 = false := by decide
  have hdecap : ("a" : String) ++ tokC2run.decode [2] = "ax" := by decide
  have hk1 : (([5, 1, 2] : List Nat) ∉ [[5, 0]]) := by decide
  have hk2 : (([5, 1, 2] : List Nat) ∉ [[5, 1], [5]]) := by decide
  have hpush2 : heappush beamLt
      [(⟨-(Real.log ((5:ℝ)/9) * (5 + ((6:ℝ) ^ ((3:ℝ)/5))⁻¹)), -Real.log ((5:ℝ)/9), [0], "b"⟩ : BeamItem ℝ)]
      ⟨(-Real.log ((3:ℝ)/4) + -Real.log ((3:ℝ)/4)) * (5 + (2:ℝ) ^ ((3:ℝ)/5) / (6:ℝ) ^ ((3:ℝ)/5)),
        -Real.log ((3:ℝ)/4) + -Real.log ((3:ℝ)/4), [1, 2], "ax"⟩ =
      [⟨-(Real.log ((5:ℝ)/9) * (5 + ((6:ℝ) ^ ((3:ℝ)/5))⁻¹)), -Real.log ((5:ℝ)/9), [0], "b"⟩,
       ⟨(-Real.log ((3:ℝ)/4) + -Real.log ((3:ℝ)/4)) * (5 + (2:ℝ) ^ ((3:ℝ)/5) / (6:ℝ) ^ ((3:ℝ)/5)),
         -Real.log ((3:ℝ)/4) + -Real.log ((3:ℝ)/4), [1, 2], "ax"⟩] :=
    heappush_pair_of_not_lt _ _ _ hF2test
  rw [searchStep]
  rw [show heappop beamLt
      [(⟨-(Real.log ((3:ℝ)/4) * (5 + ((6:ℝ) ^ ((3:ℝ)/5))⁻¹)), -Real.log ((3:ℝ)/4), [1], "a"⟩ : BeamItem ℝ),
       ⟨-(Real.log ((5:ℝ)/9) * (5 + ((6:ℝ) ^ ((3:ℝ)/5))⁻¹)), -Real.log ((5:ℝ)/9), [0], "b"⟩] =
      some (⟨-(Real.log ((3:ℝ)/4) * (5 + ((6:ℝ) ^ ((3:ℝ)/5))⁻¹)), -Real.log ((3:ℝ)/4), [1], "a"⟩,
        [⟨-(Real.log ((5:ℝ)/9) * (5 + ((6:ℝ) ^ ((3:ℝ)/5))⁻¹)), -Real.log ((5:ℝ)/9), [0], "b"⟩])
    from heappop_pair _ _ _]
  norm_num [List.lookup, oracleC2run, expandAndPrune, expandTokens, expandOne,
    _create_new_beam_item,
    h2a, h4a, h3a, hs2, hdecap, hk1, hk2, floatOps,
    heappush_nil, hpush2, hF2test, _get_top_tokens, enumerateFrom, pySorted, pyInsertStable,
    probDescLt, nsmallest]


set_option maxHeartbeats 1000000 in
theorem C2_hstep3 :
    searchStep floatOps ⟨3, 10⟩ tokC2run oracleC2run [5] ""
      ⟨[⟨-(Real.log ((5:ℝ)/9) * (5 + ((6:ℝ) ^ ((3:ℝ)/5))⁻¹)), -Real.log ((5:ℝ)/9), [0], "b"⟩,
        ⟨(-Real.log ((3:ℝ)/4) + -Real.log ((3:ℝ)/4)) * (5 + (2:ℝ) ^ ((3:ℝ)/5) / (6:ℝ) ^ ((3:ℝ)/5)),
          -Real.log ((3:ℝ)/4) + -Real.log ((3:ℝ)/4), [1, 2], "ax"⟩],
       [], [], [([5, 1], [(2, 3/4), (4, 1/50), (3, 1/100)]),
                ([5], [(1, 3/4), (0, 5/9), (3, 1/100)])],
       [[5, 1], [5]], [[5, 1, 2], [5, 0]], 2⟩ =
    .ok ⟨[⟨(-Real.log ((3:ℝ)/4) + -Real.log ((3:ℝ)/4)) * (5 + (2:ℝ) ^ ((3:ℝ)/5) / (6:ℝ) ^ ((3:ℝ)/5)),
            -Real.log ((3:ℝ)/4) + -Real.log ((3:ℝ)/4), [1, 2], "ax"⟩],
         [⟨-(Real.log ((5:ℝ)/9) * (5 + ((6:ℝ) ^ ((3:ℝ)/5))⁻¹)), [0], "b", Real.exp (Real.log ((5:ℝ)/9))⟩],
         ["b"],
         [([5, 0], [(1, 1/2), (4, 1/50), (3, 1/100)]),
          ([5, 1], [(2, 3/4), (4, 1/50), (3, 1/100)]),
          ([5], [(1, 3/4), (0, 5/9), (3, 1/100)])],
         [[5, 0], [5, 1], [5]], [[5, 1, 2]], 3⟩ := by
  have h1a : contains_letters_only tokC2run 1 = true := by decide
  have h4a : contains_letters_only tokC2run 4 = false := by decide
  have h3a : contains_letters_only tokC2run 3 = false := by decide
  have hs1 : starts_new_word tokC2run 1 = true := by decide
  have hl1 : pyLStrip (tokC2run.decode [1]) = "a" := by decide
  have hstB : pyStrip ("b" : String) = "b" := by decide
  have hbne : ¬(("b" : String) = "") := by decide
  have hk3 : (([5, 0] : List Nat) ∉ [[5, 1], [5]]) := by decide
  have hq1 : (([5, 1] : List Nat) ∈ [[5, 0], [5, 1], [5]]) := by decide
  have hlook3 : List.lookup ([5, 0] : List Nat)
      [([5, 1], [((2:ℕ), (3:ℚ)/4), (4, 1/50), (3, 1/100)]),
       ([5], [(1, 3/4), (0, 5/9), (3, 1/100)])] = none := by decide
  rw [searchStep]
  rw [show heappop beamLt
      [(⟨-(Real.log ((5:ℝ)/9) * (5 + ((6:ℝ) ^ ((3:ℝ)/5))⁻¹)), -Real.log ((5:ℝ)/9), [0], "b"⟩ : BeamItem ℝ),
       ⟨(-Real.log ((3:ℝ)/4) + -Real.log ((3:ℝ)/4)) * (5 + (2:ℝ) ^ ((3:ℝ)/5) / (6:ℝ) ^ ((3:ℝ)/5)),
         -Real.log ((3:ℝ)/4) + -Real.log ((3:ℝ)/4), [1, 2], "ax"⟩] =
      some (⟨-(Real.log ((5:ℝ)/9) * (5 + ((6:ℝ) ^ ((3:ℝ)/5))⁻¹)), -Real.log ((5:ℝ)/9), [0], "b"⟩,
        [⟨(-Real.log ((3:ℝ)/4) + -Real.log ((3:ℝ)/4)) * (5 + (2:ℝ) ^ ((3:ℝ)/5) / (6:ℝ) ^ ((3:ℝ)/5)),
          -Real.log ((3:ℝ)/4) + -Real.log ((3:ℝ)/4), [1, 2], "ax"⟩])
    from heappop_pair _ _ _]
  norm_num [hlook3, oracleC2run, expandAndPrune, expandTokens, expandOne,
    _create_new_beam_item, completeCurrent, _create_complete_word,
    h1a, h4a, h3a, hs1, hl1, hstB, hbne, hk3, hq1, floatOps,
    heappush_nil, _get_top_tokens, enumerateFrom, pySorted, pyInsertStable,
    probDescLt, nsmallest]


theorem hF3test : cwLt
    (⟨(-Real.log ((3:ℝ)/4) + -Real.log ((3:ℝ)/4)) * (5 + (2:ℝ) ^ ((3:ℝ)/5) / (6:ℝ) ^ ((3:ℝ)/5)),
       [1, 2], "ax", Real.exp (Real.log ((3:ℝ)/4) + Real.log ((3:ℝ)/4))⟩ : CompletedWord ℝ)
    (⟨-(Real.log ((5:ℝ)/9) * (5 + ((6:ℝ) ^ ((3:ℝ)/5))⁻¹)), [0], "b",
       Real.exp (Real.log ((5:ℝ)/9))⟩ : CompletedWord ℝ) = false := by
  simp only [cwLt, decide_eq_false_iff_not, not_lt]
  have h1 : -(Real.log ((5:ℝ)/9) * (5 + ((6:ℝ) ^ ((3:ℝ)/5))⁻¹)) =
      Real.log ((9:ℝ)/5) * (5 + ((6:ℝ) ^ ((3:ℝ)/5))⁻¹) := by
    rw [← log_inv_59]
    ring
  have h2 : (-Real.log ((3:ℝ)/4) + -Real.log ((3:ℝ)/4)) *
      (5 + (2:ℝ) ^ ((3:ℝ)/5) / (6:ℝ) ^ ((3:ℝ)/5)) =
      2 * Real.log ((4:ℝ)/3) * (5 + (2:ℝ) ^ ((3:ℝ)/5) / (6:ℝ) ^ ((3:ℝ)/5)) := by
    rw [← log_inv_34]
    ring
  rw [h1, h2]
  exact le_of_lt c2_key_ineq

set_option maxHeartbeats 1000000 in
theorem C2_hstep4 :
    searchStep floatOps ⟨3, 10⟩ tokC2run oracleC2run [5] ""
      ⟨[⟨(-Real.log ((3:ℝ)/4) + -Real.log ((3:ℝ)/4)) * (5 + (2:ℝ) ^ ((3:ℝ)/5) / (6:ℝ) ^ ((3:ℝ)/5)),
          -Real.log ((3:ℝ)/4) + -Real.log ((3:ℝ)/4), [1, 2], "ax"⟩],
       [⟨-(Real.log ((5:ℝ)/9) * (5 + ((6:ℝ) ^ ((3:ℝ)/5))⁻¹)), [0], "b", Real.exp (Real.log ((5:ℝ)/9))⟩],
       ["b"],
       [([5, 0], [(1, 1/2), (4, 1/50), (3, 1/100)]),
        ([5, 1], [(2, 3/4), (4, 1/50), (3, 1/100)]),
        ([5], [(1, 3/4), (0, 5/9), (3, 1/100)])],
       [[5, 0], [5, 1], [5]], [[5, 1, 2]], 3⟩ =
    .ok ⟨[],
         [⟨-(Real.log ((5:ℝ)/9) * (5 + ((6:ℝ) ^ ((3:ℝ)/5))⁻¹)), [0], "b", Real.exp (Real.log ((5:ℝ)/9))⟩,
          ⟨(-Real.log ((3:ℝ)/4) + -Real.log ((3:ℝ)/4)) * (5 + (2:ℝ) ^ ((3:ℝ)/5) / (6:ℝ) ^ ((3:ℝ)/5)),
            [1, 2], "ax", Real.exp (Real.log ((3:ℝ)/4) + Real.log ((3:ℝ)/4))⟩],
         ["b", "ax"],
         [([5, 1, 2], [(1, 1/2), (4, 1/50), (3, 1/100)]),
          ([5, 0], [(1, 1/2), (4, 1/50), (3, 1/100)]),
          ([5, 1], [(2, 3/4), (4, 1/50), (3, 1/100)]),
          ([5], [(1, 3/4), (0, 5/9), (3, 1/100)])],
         [[5, 1, 2], [5, 0], [5, 1], [5]], [], 4⟩ := by
  have h1a : contains_letters_only tokC2run 1 = true := by decide
  have h4a : contains_letters_only tokC2run 4 = false := by decide
  have h3a : contains_letters_only tokC2run 3 = false := by decide
  have hs1 : starts_new_word tokC2run 1 = true := by decide
  have hl1 : pyLStrip (tokC2run.decode [1]) = "a" := by decide
  have hstAX : pyStrip ("ax" : String) = "ax" := by decide
  have haxne : ¬(("ax" : String) = "") := by decide
  have haxmem : ¬(("ax" : String) ∈ ["b"]) := by decide
  have haxb : ¬(("ax" : String) = "b") := by decide
  have hk4 : (([5, 1, 2] : List Nat) ∉ [[5, 0], [5, 1], [5]]) := by decide
  have hq2 : (([5, 1] : List Nat) ∈ [[5, 1, 2], [5, 0], [5, 1], [5]]) := by decide
  have horacle4 : oracleC2run [5, 1, 2] = .ok [1/1000, 1/2, 1/1000, 1/100, 1/50] := rfl
  have hlook4 : List.lookup ([5, 1, 2] : List Nat)
      [([5, 0], [((1:ℕ), (1:ℚ)/2), (4, 1/50), (3, 1/100)]),
       ([5, 1], [(2, 3/4), (4, 1/50), (3, 1/100)]),
       ([5], [(1, 3/4), (0, 5/9), (3, 1/100)])] = none := by decide
  have hpush3 : heappush cwLt
      [(⟨-(Real.log ((5:ℝ)/9) * (5 + ((6:ℝ) ^ ((3:ℝ)/5))⁻¹)), [0], "b",
          Real.exp (Real.log ((5:ℝ)/9))⟩ : CompletedWord ℝ)]
      ⟨(-Real.log ((3:ℝ)/4) + -Real.log ((3:ℝ)/4)) * (5 + (2:ℝ) ^ ((3:ℝ)/5) / (6:ℝ) ^ ((3:ℝ)/5)),
        [1, 2], "ax", Real.exp (Real.log ((3:ℝ)/4) + Real.log ((3:ℝ)/4))⟩ =
      [⟨-(Real.log ((5:ℝ)/9) * (5 + ((6:ℝ) ^ ((3:ℝ)/5))⁻¹)), [0], "b", Real.exp (Real.log ((5:ℝ)/9))⟩,
       ⟨(-Real.log ((3:ℝ)/4) + -Real.log ((3:ℝ)/4)) * (5 + (2:ℝ) ^ ((3:ℝ)/5) / (6:ℝ) ^ ((3:ℝ)/5)),
         [1, 2], "ax", Real.exp (Real.log ((3:ℝ)/4) + Real.log ((3:ℝ)/4))⟩] :=
    heappush_pair_of_not_lt _ _ _ hF3test
  rw [searchStep]
  rw [show heappop beamLt
      [(⟨(-Real.log ((3:ℝ)/4) + -Real.log ((3:ℝ)/4)) * (5 + (2:ℝ) ^ ((3:ℝ)/5) / (6:ℝ) ^ ((3:ℝ)/5)),
          -Real.log ((3:ℝ)/4) + -Real.log ((3:ℝ)/4), [1, 2], "ax"⟩ : BeamItem ℝ)] =
      some (⟨(-Real.log ((3:ℝ)/4) + -Real.log ((3:ℝ)/4)) * (5 + (2:ℝ) ^ ((3:ℝ)/5) / (6:ℝ) ^ ((3:ℝ)/5)),
          -Real.log ((3:ℝ)/4) + -Real.log ((3:ℝ)/4), [1, 2], "ax"⟩, [])
    from heappop_singleton _ _]
  norm_num [hlook4, horacle4, expandAndPrune, expandTokens, expandOne,
    _create_new_beam_item, completeCurrent, _create_complete_word,
    h1a, h4a, h3a, hs1, hl1, hstAX, haxne, haxmem, haxb, hk4, hq2, floatOps,
    heappush_nil, hpush3, hF3test, _get_top_tokens, enumerateFrom, pySorted, pyInsertStable,
    probDescLt, nsmallest]


set_option maxHeartbeats 1000000 in
/-- Claim C2 (counterexample): a full run whose returned probabilities are
`[5/9, 9/16]` - increasing, not decreasing.  The one-token word `b` is more
probable-per-length and wins on the normalized score, yet its reported
probability 5/9 is smaller than the two-token word's 9/16. -/
theorem C2_counterexample :
    get_top_k_wordsReal ⟨3, 10⟩ tokC2run oracleC2run "a " 2 =
      .ok [("b", (5/9 : ℝ), 1), ("ax", (9/16 : ℝ), 2)] ∧
    (5/9 : ℝ) < 9/16 := by
  refine ⟨?_, by norm_num⟩
  have hc : _clean_context_text "a " = "a " := by decide
  have he' : _extract_unfinished_word "a " = ("a ", "") := by decide
  have henc : tokC2run.encode "a " = [5] := by decide
  unfold get_top_k_wordsReal get_top_k_words get_top_k_completed
  simp only [hc, he', henc, initialBeam, initialBeamKeys, ne_eq,
    eq_self_iff_true, not_true_eq_false, if_false, List.append_nil]
  rw [searchLoop.eq_def]
  rw [dif_pos (by norm_num)]
  rw [C2_hstep1]
  simp only []
  rw [searchLoop.eq_def]
  rw [dif_pos (by norm_num)]
  rw [C2_hstep2]
  simp only []
  rw [searchLoop.eq_def]
  rw [dif_pos (by norm_num)]
  rw [C2_hstep3]
  simp only []
  rw [searchLoop.eq_def]
  rw [dif_pos (by norm_num)]
  rw [C2_hstep4]
  simp only []
  rw [searchLoop.eq_def]
  rw [dif_neg (by norm_num)]
  simp only []
  have hexp1 : Real.exp (Real.log ((5:ℝ)/9)) = 5/9 := Real.exp_log (by norm_num)
  have hexp2 : Real.exp (Real.log ((3:ℝ)/4) + Real.log ((3:ℝ)/4)) = 9/16 := by
    rw [Real.exp_add, Real.exp_log (by norm_num)]
    norm_num
  have hF3x : cwLt
      (⟨(-Real.log ((3:ℝ)/4) + -Real.log ((3:ℝ)/4)) * (5 + (2:ℝ) ^ ((3:ℝ)/5) / (6:ℝ) ^ ((3:ℝ)/5)),
         [1, 2], "ax", (9/16 : ℝ)⟩ : CompletedWord ℝ)
      (⟨-(Real.log ((5:ℝ)/9) * (5 + ((6:ℝ) ^ ((3:ℝ)/5))⁻¹)), [0], "b", (5/9 : ℝ)⟩ : CompletedWord ℝ)
      = false := by
    simp only [cwLt, decide_eq_false_iff_not, not_lt]
    have h1 : -(Real.log ((5:ℝ)/9) * (5 + ((6:ℝ) ^ ((3:ℝ)/5))⁻¹)) =
        Real.log ((9:ℝ)/5) * (5 + ((6:ℝ) ^ ((3:ℝ)/5))⁻¹) := by
      rw [← log_inv_59]
      ring
    have h2 : (-Real.log ((3:ℝ)/4) + -Real.log ((3:ℝ)/4)) *
        (5 + (2:ℝ) ^ ((3:ℝ)/5) / (6:ℝ) ^ ((3:ℝ)/5)) =
        2 * Real.log ((4:ℝ)/3) * (5 + (2:ℝ) ^ ((3:ℝ)/5) / (6:ℝ) ^ ((3:ℝ)/5)) := by
      rw [← log_inv_34]
      ring
    rw [h1, h2]
    exact le_of_lt c2_key_ineq
  norm_num [nsmallest, pySorted, pyInsertStable, hF3x, hexp1, hexp2]


/-- Claim C2 (amended): the pool the returned tuples are drawn from is sorted
ascending by the length-normalized score `neg_log_prob_normalised` (the
`CompletedWord` dataclass ordering used by `heapq.nsmallest`), not by the
reported probability. -/
theorem C2_sorted_by_normalized_score {R : Type} [LinearOrder R] [Add R] [Zero R]
    (ops : ScoreOps R) (cfg : SearchConfig) (tok : Tokenizer) (oracle : OracleModel)
    (context_text : String) (k : Nat) (ws : List (CompletedWord R))
    (hok : get_top_k_completed ops cfg tok oracle context_text k = .ok ws) :
    ws.Chain' fun a b => a.neg_log_prob_normalised ≤ b.neg_log_prob_normalised := by
  unfold get_top_k_completed at hok
  simp only [] at hok
  split at hok
  · exact absurd hok (by simp)
  · simp only [Except.ok.injEq] at hok
    rw [← hok]
    exact nsmallest_chain (fun w : CompletedWord R => w.neg_log_prob_normalised) k _

/-- Witness for C2_sorted_by_normalized_score: a degenerate `k = 0` call
returns an empty (vacuously sorted) pool, and the theorem instantiates on it. -/
theorem C2_witness :
    get_top_k_completed floatOps ⟨1, 10⟩ ⟨fun _ => [], fun _ => "", fun _ => ""⟩
      (fun _ => .ok []) "x" 0 = .ok ([] : List (CompletedWord ℝ)) ∧
    ([] : List (CompletedWord ℝ)).Chain'
      (fun a b => a.neg_log_prob_normalised ≤ b.neg_log_prob_normalised) := by
  have hrun : get_top_k_completed floatOps ⟨1, 10⟩ ⟨fun _ => [], fun _ => "", fun _ => ""⟩
      (fun _ => .ok []) "x" 0 = .ok ([] : List (CompletedWord ℝ)) := by
    unfold get_top_k_completed
    simp only []
    rw [searchLoop.eq_def]
    rw [dif_neg (by norm_num)]
    simp only []
    norm_num [nsmallest, pySorted]
  exact ⟨hrun, C2_sorted_by_normalized_score floatOps ⟨1, 10⟩
    ⟨fun _ => [], fun _ => "", fun _ => ""⟩ (fun _ => .ok []) "x" 0 [] hrun⟩

end Pisak
